import Mathlib

/-!
Shallow embedding of the `sql-to-db-diagram` layout engine
(`src/db_diagram/layout/networkx_layout.py`) and the parts of the data
model (`src/db_diagram/models.py`) that it uses.

Python integers are modelled as `Int` (all coordinates and dimensions in
the source are integer-valued), Python `None`-able values as `Option`,
Python dicts that are only ever read back by key as functions
`String → Option _` built by repeated update (last write wins, exactly
like a dict), and the `networkx.DiGraph` as an explicit list of nodes and
a duplicate-free list of directed edges (a `DiGraph` is a simple graph:
`add_node` / `add_edge` are idempotent).
-/

namespace DbDiagram

/-- `models.ForeignKeyReference`: reference to another table's column. -/
structure ForeignKeyReference where
  table : String
  column : String
  schema : Option String := none
  constraint_name : Option String := none
deriving DecidableEq, Repr

/-- `models.Column`: database column definition. -/
structure Column where
  name : String
  type : String
  nullable : Bool := true
  primary_key : Bool := false
  unique : Bool := false
  default_value : Option String := none
  references : Option ForeignKeyReference := none
deriving DecidableEq, Repr

/-- `models.ForeignKey`: foreign key constraint. -/
structure ForeignKey where
  columns : List String
  referenced_table : String
  referenced_columns : List String
  name : Option String := none
deriving DecidableEq, Repr

/-- `models.Index`: database index. -/
structure Index where
  name : String
  columns : List String
  unique : Bool := false
deriving DecidableEq, Repr

/-- `models.Table`: database table definition. -/
structure Table where
  name : String
  columns : List Column := []
  primary_key : Option (List String) := none
  foreign_keys : List ForeignKey := []
  indexes : List Index := []
  schema : Option String := none
deriving DecidableEq, Repr

/-- `models.Schema`: complete database schema.  The dialect literal is
modelled as a plain string. -/
structure Schema where
  tables : List Table := []
  dialect : String := "postgresql"
deriving DecidableEq, Repr

/-- `models.PositionedTable`: a `Table` together with layout geometry. -/
structure PositionedTable where
  name : String
  columns : List Column := []
  primary_key : Option (List String) := none
  foreign_keys : List ForeignKey := []
  indexes : List Index := []
  schema : Option String := none
  x : Int := 0
  y : Int := 0
  width : Int := 0
  height : Int := 0
deriving DecidableEq, Repr

/-- `models.PositionedSchema`: schema with positioned tables. -/
structure PositionedSchema where
  tables : List PositionedTable := []
  dialect : String := "postgresql"
deriving DecidableEq, Repr

/-- Python truthiness of an optional string (`if table.schema:`):
`None` and the empty string are falsy. -/
def strTruthy : Option String → Bool
  | none => false
  | some s => s ≠ ""

/-- `models.get_qualified_table_name`: returns `"schema.name"` if the
schema is truthy, otherwise just `name`. -/
def get_qualified_table_name (t : Table) : String :=
  match t.schema with
  | some s => if s ≠ "" then s ++ "." ++ t.name else t.name
  | none => t.name

/-- Direction literal `"TB" | "LR"`. -/
inductive LayoutDirection where
  | TB
  | LR
deriving DecidableEq, Repr

/-- `networkx_layout.LayoutOptions` dataclass. -/
structure LayoutOptions where
  char_width : Int := 8
  row_height : Int := 26
  padding : Int := 20
  min_table_width : Int := 150
  node_gap : Int := 80
  rank_gap : Int := 120
  direction : LayoutDirection := .TB
deriving DecidableEq, Repr

/-- The Python default `LayoutOptions()`. -/
def defaultLayoutOptions : LayoutOptions := {}

/-- The formatted line of one column inside `_calculate_table_dimensions`:
`"name: type"` plus the `PK` / `FK` / `NN` suffixes. -/
def columnLine (c : Column) : String :=
  let line := c.name ++ ": " ++ c.type
  let line := if c.primary_key then line ++ " PK" else line
  let line := if c.references.isSome then line ++ " FK" else line
  if !c.nullable && !c.primary_key then line ++ " NN" else line

/-- Python `max` folded over the tail of a nonempty list. -/
def listMaxI (x : Int) : List Int → Int
  | [] => x
  | y :: ys => listMaxI (max x y) ys

/-- `networkx_layout._calculate_table_dimensions`: width from the longest
line (Python `max([header_length] + column_lengths) if column_lengths
else header_length`), height from the header band plus one row per
column plus bottom padding. -/
def calculate_table_dimensions (t : Table) (opts : LayoutOptions) : Int × Int :=
  (max opts.min_table_width
      ((match t.columns.map (fun c => ((columnLine c).length : Int)) with
        | [] => (t.name.length : Int)
        | l :: ls => listMaxI (max (t.name.length : Int) l) ls)
        * opts.char_width + opts.padding * 2),
    (opts.row_height + 4) + (t.columns.length : Int) * opts.row_height + opts.padding)

/-- One assignment `table_dims[qualified_name] = dims` of the node loop. -/
def dimsStep (opts : LayoutOptions) (m : String → Option (Int × Int)) (t : Table) :
    String → Option (Int × Int) :=
  fun k => if k = get_qualified_table_name t then some (calculate_table_dimensions t opts) else m k

/-- The `table_dims` dict of `layout_schema`, keyed by qualified name;
later tables overwrite earlier ones with the same qualified name, exactly
like a Python dict assignment. -/
def tableDims (s : Schema) (opts : LayoutOptions) : String → Option (Int × Int) :=
  s.tables.foldl (dimsStep opts) (fun _ => none)

/-- The `table_name_to_qualified` dict: the qualified names of the tables
whose simple name is `n`, in input order. -/
def nameToQualified (tables : List Table) (n : String) : List String :=
  (tables.filter (fun t => t.name = n)).map get_qualified_table_name

/-- The directed graph built by `layout_schema`: node list (insertion
order, no duplicates) and edge list (no duplicates). -/
structure Digraph where
  nodes : List String := []
  edges : List (String × String) := []
deriving DecidableEq, Repr

/-- `g.add_node`: idempotent node insertion. -/
def addNode (g : Digraph) (n : String) : Digraph :=
  if n ∈ g.nodes then g else { g with nodes := g.nodes ++ [n] }

/-- `g.add_edge` for endpoints that are already nodes: idempotent edge
insertion (a `DiGraph` holds at most one edge per ordered pair). -/
def addEdge (g : Digraph) (e : String × String) : Digraph :=
  if e ∈ g.edges then g else { g with edges := g.edges ++ [e] }

/-- Structural prefix test on char lists. -/
def charsIsPref : List Char → List Char → Bool
  | [], _ => true
  | _ :: _, [] => false
  | a :: as, b :: bs => (a = b) && charsIsPref as bs

/-- Python `str.startswith`: code-point prefix test. -/
def strStartsWith (s p : String) : Bool := charsIsPref p.data s.data

/-- The foreign-key target resolution of `layout_schema` (lines 53-65):
keep an already-qualified target, otherwise look the simple name up and
disambiguate as the code does. -/
def resolveTarget (s : Schema) (opts : LayoutOptions) (t : Table) (fk : ForeignKey) : String :=
  if (tableDims s opts fk.referenced_table).isSome then fk.referenced_table
  else if (nameToQualified s.tables fk.referenced_table).length = 1 then
    (nameToQualified s.tables fk.referenced_table).headD fk.referenced_table
  else if (nameToQualified s.tables fk.referenced_table).length > 1 ∧ strTruthy t.schema then
    match (nameToQualified s.tables fk.referenced_table).find?
        (fun c => strStartsWith c ((t.schema.getD "") ++ ".")) with
    | some c => c
    | none => (nameToQualified s.tables fk.referenced_table).headD fk.referenced_table
  else if nameToQualified s.tables fk.referenced_table ≠ [] then
    (nameToQualified s.tables fk.referenced_table).headD fk.referenced_table
  else fk.referenced_table

/-- Processing of one foreign key in the edge loop of `layout_schema`:
add the edge only when the resolved target is a known table. -/
def addFkEdge (s : Schema) (opts : LayoutOptions) (g : Digraph) (t : Table) (fk : ForeignKey) : Digraph :=
  if (tableDims s opts (resolveTarget s opts t fk)).isSome then
    addEdge g (get_qualified_table_name t, resolveTarget s opts t fk)
  else g

/-- The node-insertion loop of `layout_schema` (lines 38-47). -/
def addNodesPhase (tables : List Table) (g : Digraph) : Digraph :=
  tables.foldl (fun g t => addNode g (get_qualified_table_name t)) g

/-- The inner loop over one table's foreign keys (lines 52-68). -/
def addTableEdges (s : Schema) (opts : LayoutOptions) (g : Digraph) (t : Table) : Digraph :=
  t.foreign_keys.foldl (fun g fk => addFkEdge s opts g t fk) g

/-- The edge-insertion loop of `layout_schema` (lines 50-68). -/
def addEdgesPhase (s : Schema) (opts : LayoutOptions) (g : Digraph) : Digraph :=
  s.tables.foldl (addTableEdges s opts) g

/-- The complete graph `g` that `layout_schema` builds. -/
def buildGraph (s : Schema) (opts : LayoutOptions) : Digraph :=
  addEdgesPhase s opts (addNodesPhase s.tables {})

/-- `g.in_degree()` of one node: number of (distinct) incoming edges,
self-loops included. -/
def inDegree (edges : List (String × String)) (n : String) : Nat :=
  (edges.filter (fun e => e.2 = n)).length

/-- One peeling step of `networkx.topological_generations`: the nodes of
`remaining` with no incoming edge from a node of `remaining`. -/
def peelStep (remaining : List String) (edges : List (String × String)) : List String :=
  remaining.filter (fun n => !(edges.any (fun e => e.2 = n && remaining.contains e.1)))

/-- Fuelled peeling loop of `networkx.topological_generations`; `none`
models the `NetworkXUnfeasible` exception raised when a cycle blocks the
peeling (the partial output of the generator is discarded by `list`). -/
def topoGensAux (edges : List (String × String)) : Nat → List String → Option (List (List String))
  | 0, remaining => if remaining = [] then some [] else none
  | fuel + 1, remaining =>
    if remaining = [] then some []
    else if peelStep remaining edges = [] then none
    else
      match topoGensAux edges fuel
          (remaining.filter (fun n => !((peelStep remaining edges).contains n))) with
      | none => none
      | some gs => some (peelStep remaining edges :: gs)

/-- `list(nx.topological_generations(g))`, or `none` on `NetworkXUnfeasible`. -/
def topoGens (g : Digraph) : Option (List (List String)) :=
  topoGensAux g.edges g.nodes.length g.nodes

/-- Ascending insertion sort on natural numbers (Python `sorted` on the
in-degree keys). -/
def sortNat (l : List Nat) : List Nat :=
  List.insertionSort (· ≤ ·) l

/-- `networkx_layout._get_generations_with_cycles`: group the nodes by
in-degree, one generation per distinct in-degree, ascending. -/
def get_generations_with_cycles (g : Digraph) : List (List String) :=
  let ks := sortNat ((g.nodes.map (fun n => inDegree g.edges n)).dedup)
  ks.map (fun k => g.nodes.filter (fun n => inDegree g.edges n = k))

/-- The `try/except` of `_hierarchical_layout` lines 141-146: topological
generations when the graph is acyclic, in-degree grouping otherwise. -/
def computeGenerations (g : Digraph) : List (List String) :=
  match topoGens g with
  | some gs => gs
  | none => get_generations_with_cycles g

/-- Byte-wise (code-point) comparison of char lists: Python string
comparison used by `sorted`. -/
def charsLe : List Char → List Char → Bool
  | [], _ => true
  | _ :: _, [] => false
  | a :: as, b :: bs =>
    if a.toNat < b.toNat then true
    else if a.toNat = b.toNat then charsLe as bs
    else false

/-- Lexicographic string order (Python `<=` on `str`). -/
def strLeB (a b : String) : Bool := charsLe a.data b.data

/-- Python `sorted` on a list of strings: stable ascending sort by the
lexicographic code-point order. -/
def sortStr (l : List String) : List String :=
  List.insertionSort (fun a b => strLeB a b = true) l

/-- A positions dict `{node: (x, y)}`, modelled as a lookup function built
by updates (last write wins). -/
def Pos : Type := String → Option (Int × Int)

/-- Empty positions dict. -/
def emptyPos : Pos := fun _ => none

/-- `positions[node] = v`. -/
def updatePos (m : Pos) (k : String) (v : Int × Int) : Pos :=
  fun q => if q = k then some v else m q

/-- Dimension lookup `table_dims[node]` (total function; in the program
every graph node is a key of `table_dims`). -/
def dimsAt (dims : String → Option (Int × Int)) (n : String) : Int × Int :=
  (dims n).getD (0, 0)

/-- Inner loop of the `"TB"` branch: place the sorted nodes of one
generation left to right at the generation's `y`, advancing the running
`x` by each node's width plus `node_gap`. -/
def placeRowTB (d : String → Int × Int) (gap : Int) : List String → Int → Int → Pos → Pos
  | [], _x, _y, m => m
  | n :: rest, x, y, m =>
    placeRowTB d gap rest (x + (d n).1 + gap) y (updatePos m n (x, y))

/-- `max(table_dims[node][1] for node in generation) if generation else 0`. -/
def genMaxHeight (d : String → Int × Int) (gen : List String) : Int :=
  match gen.map (fun n => (d n).2) with
  | [] => 0
  | h :: hs => listMaxI h hs

/-- `max(table_dims[node][0] for node in generation) if generation else 0`. -/
def genMaxWidth (d : String → Int × Int) (gen : List String) : Int :=
  match gen.map (fun n => (d n).1) with
  | [] => 0
  | w :: ws => listMaxI w ws

/-- Outer loop of the `"TB"` branch of `_hierarchical_layout`. -/
def placeTB (d : String → Int × Int) (opts : LayoutOptions) : List (List String) → Int → Pos → Pos
  | [], _y, m => m
  | gen :: rest, y, m =>
    let m' := placeRowTB d opts.node_gap (sortStr gen) 20 y m
    placeTB d opts rest (y + genMaxHeight d gen + opts.rank_gap) m'

/-- Inner loop of the `"LR"` branch: place the sorted nodes of one
generation top to bottom at the generation's `x`, advancing the running
`y` by each node's height plus `node_gap`. -/
def placeColLR (d : String → Int × Int) (gap : Int) : List String → Int → Int → Pos → Pos
  | [], _x, _y, m => m
  | n :: rest, x, y, m =>
    placeColLR d gap rest x (y + (d n).2 + gap) (updatePos m n (x, y))

/-- Outer loop of the `"LR"` branch of `_hierarchical_layout`. -/
def placeLR (d : String → Int × Int) (opts : LayoutOptions) : List (List String) → Int → Pos → Pos
  | [], _x, m => m
  | gen :: rest, x, m =>
    let m' := placeColLR d opts.node_gap (sortStr gen) x 20 m
    placeLR d opts rest (x + genMaxWidth d gen + opts.rank_gap) m'

/-- `networkx_layout._hierarchical_layout`. -/
def hierarchical_layout (g : Digraph) (dims : String → Option (Int × Int))
    (opts : LayoutOptions) : Pos :=
  match opts.direction with
  | .TB => placeTB (dimsAt dims) opts (computeGenerations g) 20 emptyPos
  | .LR => placeLR (dimsAt dims) opts (computeGenerations g) 20 emptyPos

/-- The `positions` dict of `layout_schema` (lines 70-74): the
hierarchical layout when the graph has at least one node, `{}` otherwise. -/
def layoutPositions (s : Schema) (opts : LayoutOptions) : Pos :=
  if (buildGraph s opts).nodes.length > 0 then
    hierarchical_layout (buildGraph s opts) (tableDims s opts) opts
  else emptyPos

/-- One positioned table of the output loop (lines 78-96). -/
def positionTable (s : Schema) (opts : LayoutOptions) (t : Table) : PositionedTable :=
  let qualified_name := get_qualified_table_name t
  let dims := (tableDims s opts qualified_name).getD (0, 0)
  let pos := (layoutPositions s opts qualified_name).getD (0, 0)
  { name := t.name
    schema := t.schema
    columns := t.columns
    primary_key := t.primary_key
    foreign_keys := t.foreign_keys
    indexes := t.indexes
    x := pos.1
    y := pos.2
    width := dims.1
    height := dims.2 }

/-- `networkx_layout.layout_schema`. -/
def layout_schema (schema : Schema) (options : Option LayoutOptions) : PositionedSchema :=
  let opts := options.getD defaultLayoutOptions
  { tables := schema.tables.map (positionTable schema opts)
    dialect := schema.dialect }

/-- Forget the geometry of a `PositionedTable`, recovering a `Table`. -/
def toTable (pt : PositionedTable) : Table :=
  { name := pt.name
    columns := pt.columns
    primary_key := pt.primary_key
    foreign_keys := pt.foreign_keys
    indexes := pt.indexes
    schema := pt.schema }

/-! ### Specification-side definitions

The following definitions are written from the spec's sentences (not from
the source) so that the code can be compared against them. -/

/-- Lookup in an assignment list where a later assignment to the same key
overrides an earlier one, as in a dict. -/
def lastAssoc : List (String × Int × Int) → String → Option (Int × Int)
  | [], _ => none
  | (n, x, y) :: rest, k =>
    match lastAssoc rest k with
    | some v => some v
    | none => if k = n then some (x, y) else none

/-- Modelled from the spec: after the first node of a row, "each
subsequent node's x equal to the previous node's x plus the previous
node's width plus `node_gap`"; all nodes of the row share `y`. -/
def specRowRest (d : String → Int × Int) (gap : Int) (prev : String) (px py : Int) :
    List String → List (String × Int × Int)
  | [] => []
  | n :: rest =>
    (n, px + (d prev).1 + gap, py) :: specRowRest d gap n (px + (d prev).1 + gap) py rest

/-- Modelled from the spec: one `"TB"` generation row, "the first at
x = 20", the rest as in `specRowRest`, all sharing the generation's `y`. -/
def specRowTB (d : String → Int × Int) (gap : Int) (ns : List String) (y : Int) :
    List (String × Int × Int) :=
  match ns with
  | [] => []
  | n :: rest => (n, 20, y) :: specRowRest d gap n 20 y rest

/-- Modelled from the spec: `"TB"` placement, generation by generation;
each generation's nodes are sorted lexicographically; "the first
generation's y is 20 and each following generation's y equals the
previous generation's y plus the maximum height among the previous
generation's nodes plus `rank_gap`". -/
def specGensTB (d : String → Int × Int) (gap rank : Int) :
    List (List String) → Int → List (String × Int × Int)
  | [], _ => []
  | gen :: rest, y =>
    specRowTB d gap (sortStr gen) y ++ specGensTB d gap rank rest (y + genMaxHeight d gen + rank)

/-- Modelled from the spec: the `"LR"` transposition of `specRowRest`
(roles of x/y and width/height swapped). -/
def specColRest (d : String → Int × Int) (gap : Int) (prev : String) (px py : Int) :
    List String → List (String × Int × Int)
  | [] => []
  | n :: rest =>
    (n, px, py + (d prev).2 + gap) :: specColRest d gap n px (py + (d prev).2 + gap) rest

/-- Modelled from the spec: one `"LR"` generation column, the first node
at y = 20, all nodes sharing the generation's `x`. -/
def specColLR (d : String → Int × Int) (gap : Int) (ns : List String) (x : Int) :
    List (String × Int × Int) :=
  match ns with
  | [] => []
  | n :: rest => (n, x, 20) :: specColRest d gap n x 20 rest

/-- Modelled from the spec: `"LR"` placement, with the maximum width in
place of the maximum height. -/
def specGensLR (d : String → Int × Int) (gap rank : Int) :
    List (List String) → Int → List (String × Int × Int)
  | [], _ => []
  | gen :: rest, x =>
    specColLR d gap (sortStr gen) x ++ specGensLR d gap rank rest (x + genMaxWidth d gen + rank)

/-- Modelled from the spec: the whole generation-by-generation placement
described by the spec, as a position lookup. -/
def specPlacement (s : Schema) (opts : LayoutOptions) (k : String) : Option (Int × Int) :=
  match opts.direction with
  | .TB => lastAssoc (specGensTB (dimsAt (tableDims s opts)) opts.node_gap opts.rank_gap
      (computeGenerations (buildGraph s opts)) 20) k
  | .LR => lastAssoc (specGensLR (dimsAt (tableDims s opts)) opts.node_gap opts.rank_gap
      (computeGenerations (buildGraph s opts)) 20) k

/-- Modelled from the spec: the cycle fallback groups "every node purely
by its in-degree ..., producing one generation per distinct in-degree
value, generations ordered by ascending in-degree". -/
def inDegreeGensSpec (g : Digraph) : List (List String) :=
  (sortNat ((g.nodes.map (fun n => inDegree g.edges n)).dedup)).map
    (fun k => g.nodes.filter (fun n => inDegree g.edges n = k))

/-- Edge chain check closing back to `v0`: starting from `a`, successive
edges through the list and finally an edge from the last node to `v0`. -/
def cycleClose (E : List (String × String)) (v0 : String) : String → List String → Bool
  | a, [] => decide ((a, v0) ∈ E)
  | a, b :: rest => decide ((a, b) ∈ E) && cycleClose E v0 b rest

/-- A directed cycle of the edge list `E`: a nonempty node sequence
joined by consecutive edges whose last node has an edge back to its
first (a one-element sequence with a self-loop counts). -/
def cycleWitness (E : List (String × String)) : List String → Bool
  | [] => false
  | v :: vs => cycleClose E v v vs

/-- Modelled from the spec: foreign-key target resolution for an
unqualified name matching several tables, "disambiguate by preferring a
candidate whose schema equals the referencing table's own schema; if
none matches, or the referencing table has no schema, pick the first
candidate in the stable input order". -/
def specResolveClaim (tables : List Table) (tschema : Option String) (ref : String) : String :=
  if tables.any (fun t => get_qualified_table_name t = ref) then ref
  else
    match tables.filter (fun t => t.name = ref) with
    | [] => ref
    | [c] => get_qualified_table_name c
    | c0 :: c1 :: cs =>
      if strTruthy tschema then
        match (c0 :: c1 :: cs).find? (fun c => c.schema = tschema) with
        | some c => get_qualified_table_name c
        | none => get_qualified_table_name c0
      else get_qualified_table_name c0

/-- Modelled from the spec: a column line is `"name: type"` plus
space-separated tags `PK` / `FK` / `NN` appended when applicable, `NN`
only if not nullable and not primary key. -/
def specColumnLine (c : Column) : String :=
  let tags :=
    (if c.primary_key then " PK" else "")
      ++ (if c.references.isSome then " FK" else "")
      ++ (if !c.nullable && !c.primary_key then " NN" else "")
  c.name ++ ": " ++ c.type ++ tags

/-- Modelled from the spec: the longest line length — the maximum, over
the table name and every formatted column line, of the character count. -/
def specLongestLine (t : Table) : Int :=
  listMaxI (t.name.length : Int) (t.columns.map (fun c => ((specColumnLine c).length : Int)))

/-- Modelled from the spec: table width
`max(min_table_width, longest_line_length * char_width + 2*padding)`. -/
def specWidth (t : Table) (opts : LayoutOptions) : Int :=
  max opts.min_table_width (specLongestLine t * opts.char_width + 2 * opts.padding)

/-- Modelled from the spec: table height
`(row_height + header_extra) + columns_count * row_height + padding`
with a fixed header extra of 4. -/
def specHeight (t : Table) (opts : LayoutOptions) : Int :=
  (opts.row_height + 4) + (t.columns.length : Int) * opts.row_height + opts.padding

/-! ### Concrete example schemas used by witnesses and counterexamples -/

/-- A primary-key column as in the test suite. -/
def exColId : Column := { name := "id", type := "SERIAL", primary_key := true, nullable := false }

/-- `public.users` from the spec's ambiguous-resolution example. -/
def exPubUsers : Table := { name := "users", schema := some "public", columns := [exColId] }

/-- `audit.users` from the spec's ambiguous-resolution example. -/
def exAudUsers : Table := { name := "users", schema := some "audit", columns := [exColId] }

/-- The unqualified foreign key `orders.user_id → users.id`. -/
def exPubFk : ForeignKey :=
  { columns := ["user_id"], referenced_table := "users", referenced_columns := ["id"] }

/-- `public.orders` with an unqualified foreign key to `users`. -/
def exPubOrders : Table :=
  { name := "orders"
    schema := some "public"
    columns := [exColId]
    foreign_keys := [exPubFk] }

/-- The empty schema. -/
def exEmptySchema : Schema := { tables := [] }

/-- The unresolvable foreign key `orders → ghost`. -/
def exGhostFk : ForeignKey :=
  { columns := ["fk"], referenced_table := "ghost", referenced_columns := ["id"] }

/-- The spec's ambiguous-resolution example schema. -/
def exPubSchema : Schema := { tables := [exPubUsers, exAudUsers, exPubOrders] }

/-- A table named `n` with one foreign key to `ref`. -/
def exFkTable (n ref : String) : Table :=
  { name := n
    foreign_keys := [{ columns := ["fk"], referenced_table := ref, referenced_columns := ["id"] }] }

/-- The spec's 3-cycle example `A → B → C → A`. -/
def exCycleSchema : Schema :=
  { tables := [exFkTable "A" "B", exFkTable "B" "C", exFkTable "C" "A"] }

/-- A table `c.users` (schema `"c"`). -/
def exSchemaDotB : Table := { name := "users", schema := some "c" }

/-- A table whose schema string itself contains a dot: `a.b.users`. -/
def exSchemaDotA : Table := { name := "users", schema := some "a.b" }

/-- A referencing table in schema `"a"` with an unqualified foreign key
to `users`. -/
def exSchemaDotR : Table :=
  { name := "orders"
    schema := some "a"
    foreign_keys := [{ columns := ["user_id"], referenced_table := "users", referenced_columns := ["id"] }] }

/-- Schema on which prefix matching and schema equality disagree. -/
def exDotSchema : Schema := { tables := [exSchemaDotB, exSchemaDotA, exSchemaDotR] }

/-- A one-table schema used by simple witnesses. -/
def exTinySchema : Schema := { tables := [{ name := "users", columns := [exColId] }] }

/-- Orders/users DAG schema. -/
def exDagSchema : Schema :=
  { tables := [{ name := "users" }, exFkTable "orders" "users"] }

/-- A schema with an unresolvable foreign key. -/
def exGhostSchema : Schema :=
  { tables := [exFkTable "orders" "ghost"] }

/-! ### Lemmas about `table_dims` -/

theorem dimsFold_isSome (opts : LayoutOptions) (l : List Table)
    (m : String → Option (Int × Int)) (q : String) :
    ((l.foldl (dimsStep opts) m) q).isSome = true ↔
      (∃ t ∈ l, get_qualified_table_name t = q) ∨ (m q).isSome = true := by
  induction l generalizing m with
  | nil => simp
  | cons t l ih =>
    simp only [List.foldl_cons, ih, List.mem_cons]
    constructor
    · rintro (⟨t', ht', hq⟩ | h)
      · exact Or.inl ⟨t', Or.inr ht', hq⟩
      · unfold dimsStep at h
        by_cases hqt : q = get_qualified_table_name t
        · exact Or.inl ⟨t, Or.inl rfl, hqt.symm⟩
        · simp only [if_neg hqt] at h
          exact Or.inr h
    · rintro (⟨t', ht' | ht', hq⟩ | h)
      · subst ht'
        refine Or.inr ?_
        unfold dimsStep
        simp [hq.symm]
      · exact Or.inl ⟨t', ht', hq⟩
      · refine Or.inr ?_
        unfold dimsStep
        by_cases hqt : q = get_qualified_table_name t <;> simp [hqt, h]

theorem tableDims_isSome (s : Schema) (opts : LayoutOptions) (q : String) :
    ((tableDims s opts) q).isSome = true ↔ ∃ t ∈ s.tables, get_qualified_table_name t = q := by
  have h := dimsFold_isSome opts s.tables (fun _ => none) q
  simpa [tableDims] using h

theorem dimsFold_val (opts : LayoutOptions) (l : List Table)
    (m : String → Option (Int × Int)) (q : String) (v : Int × Int)
    (h : (l.foldl (dimsStep opts) m) q = some v) :
    (∃ t ∈ l, get_qualified_table_name t = q ∧ v = calculate_table_dimensions t opts) ∨
      m q = some v := by
  induction l generalizing m with
  | nil => exact Or.inr h
  | cons t l ih =>
    simp only [List.foldl_cons] at h
    rcases ih _ h with ⟨t', ht', hq, hv⟩ | h'
    · exact Or.inl ⟨t', List.mem_cons_of_mem _ ht', hq, hv⟩
    · unfold dimsStep at h'
      by_cases hqt : q = get_qualified_table_name t
      · simp only [if_pos hqt] at h'
        exact Or.inl ⟨t, List.mem_cons_self _ _, hqt.symm, (Option.some_inj.mp h').symm⟩
      · simp only [if_neg hqt] at h'
        exact Or.inr h'

theorem tableDims_val (s : Schema) (opts : LayoutOptions) (q : String) (v : Int × Int)
    (h : tableDims s opts q = some v) :
    ∃ t ∈ s.tables, get_qualified_table_name t = q ∧ v = calculate_table_dimensions t opts := by
  rcases dimsFold_val opts s.tables (fun _ => none) q v h with h' | h'
  · exact h'
  · exact absurd h' (by simp)

/-- With the default options, every computed table width is at least 150. -/
theorem calc_width_ge (t : Table) :
    150 ≤ (calculate_table_dimensions t defaultLayoutOptions).1 := by
  unfold calculate_table_dimensions
  exact le_max_left _ _

/-- With the default options, every computed table height is at least 50. -/
theorem calc_height_ge (t : Table) :
    50 ≤ (calculate_table_dimensions t defaultLayoutOptions).2 := by
  unfold calculate_table_dimensions
  simp only [defaultLayoutOptions]
  have h : (0 : Int) ≤ (t.columns.length : Int) * 26 :=
    mul_nonneg (Int.natCast_nonneg _) (by norm_num)
  omega

/-! ### Lemmas about the graph construction -/

theorem addEdge_nodes (g : Digraph) (e : String × String) : (addEdge g e).nodes = g.nodes := by
  unfold addEdge
  split <;> rfl

theorem addFkEdge_nodes (s : Schema) (opts : LayoutOptions) (g : Digraph) (t : Table)
    (fk : ForeignKey) : (addFkEdge s opts g t fk).nodes = g.nodes := by
  unfold addFkEdge
  split
  · exact addEdge_nodes _ _
  · rfl

theorem fkFold_nodes (s : Schema) (opts : LayoutOptions) (t : Table) (l : List ForeignKey)
    (g : Digraph) :
    (l.foldl (fun g fk => addFkEdge s opts g t fk) g).nodes = g.nodes := by
  induction l generalizing g with
  | nil => rfl
  | cons fk l ih => simp only [List.foldl_cons, ih, addFkEdge_nodes]

theorem addTableEdges_nodes (s : Schema) (opts : LayoutOptions) (g : Digraph) (t : Table) :
    (addTableEdges s opts g t).nodes = g.nodes :=
  fkFold_nodes s opts t t.foreign_keys g

theorem tableFold_nodes (s : Schema) (opts : LayoutOptions) (l : List Table) (g : Digraph) :
    (l.foldl (addTableEdges s opts) g).nodes = g.nodes := by
  induction l generalizing g with
  | nil => rfl
  | cons t l ih => simp only [List.foldl_cons, ih, addTableEdges_nodes]

theorem buildGraph_nodes (s : Schema) (opts : LayoutOptions) :
    (buildGraph s opts).nodes = (addNodesPhase s.tables {}).nodes :=
  tableFold_nodes s opts s.tables _

theorem addNode_mem (g : Digraph) (m n : String) :
    m ∈ (addNode g n).nodes ↔ m ∈ g.nodes ∨ m = n := by
  unfold addNode
  by_cases h : n ∈ g.nodes
  · simp only [if_pos h]
    constructor
    · exact Or.inl
    · rintro (hm | rfl)
      · exact hm
      · exact h
  · simp [if_neg h]

theorem nodesFold_mem (l : List Table) (g : Digraph) (n : String) :
    n ∈ (addNodesPhase l g).nodes ↔
      n ∈ g.nodes ∨ ∃ t ∈ l, get_qualified_table_name t = n := by
  induction l generalizing g with
  | nil => simp [addNodesPhase]
  | cons t l ih =>
    unfold addNodesPhase at ih ⊢
    simp only [List.foldl_cons, ih, addNode_mem, List.mem_cons]
    constructor
    · rintro ((h | rfl) | ⟨t', ht', hq⟩)
      · exact Or.inl h
      · exact Or.inr ⟨t, Or.inl rfl, rfl⟩
      · exact Or.inr ⟨t', Or.inr ht', hq⟩
    · rintro (h | ⟨t', rfl | ht', hq⟩)
      · exact Or.inl (Or.inl h)
      · exact Or.inl (Or.inr hq.symm)
      · exact Or.inr ⟨t', ht', hq⟩

theorem buildGraph_mem_nodes (s : Schema) (opts : LayoutOptions) (n : String) :
    n ∈ (buildGraph s opts).nodes ↔ ∃ t ∈ s.tables, get_qualified_table_name t = n := by
  rw [buildGraph_nodes]
  have h := nodesFold_mem s.tables {} n
  simpa using h

theorem addNode_nodup (g : Digraph) (n : String) (h : g.nodes.Nodup) :
    (addNode g n).nodes.Nodup := by
  unfold addNode
  by_cases hn : n ∈ g.nodes
  · simpa [if_pos hn] using h
  · simp [if_neg hn, List.nodup_append, h, hn]

theorem nodesFold_nodup (l : List Table) (g : Digraph) (h : g.nodes.Nodup) :
    (addNodesPhase l g).nodes.Nodup := by
  induction l generalizing g with
  | nil => exact h
  | cons t l ih =>
    unfold addNodesPhase at ih ⊢
    simp only [List.foldl_cons]
    exact ih _ (addNode_nodup _ _ h)

theorem buildGraph_nodes_nodup (s : Schema) (opts : LayoutOptions) :
    (buildGraph s opts).nodes.Nodup := by
  rw [buildGraph_nodes]
  exact nodesFold_nodup s.tables {} (by simp)

theorem addNode_edges (g : Digraph) (n : String) : (addNode g n).edges = g.edges := by
  unfold addNode
  split <;> rfl

theorem addNodesPhase_edges (l : List Table) (g : Digraph) :
    (addNodesPhase l g).edges = g.edges := by
  induction l generalizing g with
  | nil => rfl
  | cons t l ih =>
    unfold addNodesPhase at ih ⊢
    simp only [List.foldl_cons, ih, addNode_edges]

theorem addEdge_edges_sub (g : Digraph) (e e' : String × String)
    (h : e ∈ (addEdge g e').edges) : e ∈ g.edges ∨ e = e' := by
  unfold addEdge at h
  by_cases he : e' ∈ g.edges
  · exact Or.inl (by simpa [if_pos he] using h)
  · simp only [if_neg he] at h
    rcases List.mem_append.mp h with h | h
    · exact Or.inl h
    · exact Or.inr (by simpa using h)

theorem addFkEdge_edges_sub (s : Schema) (opts : LayoutOptions) (g : Digraph) (t : Table)
    (fk : ForeignKey) (e : String × String) (h : e ∈ (addFkEdge s opts g t fk).edges) :
    e ∈ g.edges ∨
      (e = (get_qualified_table_name t, resolveTarget s opts t fk) ∧
        (tableDims s opts (resolveTarget s opts t fk)).isSome = true) := by
  unfold addFkEdge at h
  split at h
  next hs =>
    rcases addEdge_edges_sub _ _ _ h with h' | h'
    · exact Or.inl h'
    · exact Or.inr ⟨h', hs⟩
  next => exact Or.inl h

theorem fkFold_edges_sub (s : Schema) (opts : LayoutOptions) (t : Table) (l : List ForeignKey)
    (g : Digraph) (e : String × String)
    (h : e ∈ (l.foldl (fun g fk => addFkEdge s opts g t fk) g).edges) :
    e ∈ g.edges ∨
      ∃ fk ∈ l, e = (get_qualified_table_name t, resolveTarget s opts t fk) ∧
        (tableDims s opts (resolveTarget s opts t fk)).isSome = true := by
  induction l generalizing g with
  | nil => exact Or.inl h
  | cons fk l ih =>
    simp only [List.foldl_cons] at h
    rcases ih _ h with h' | ⟨fk', hfk', he⟩
    · rcases addFkEdge_edges_sub s opts g t fk e h' with h'' | h''
      · exact Or.inl h''
      · exact Or.inr ⟨fk, List.mem_cons_self _ _, h''⟩
    · exact Or.inr ⟨fk', List.mem_cons_of_mem _ hfk', he⟩

theorem tableFold_edges_sub (s : Schema) (opts : LayoutOptions) (l : List Table)
    (g : Digraph) (e : String × String)
    (h : e ∈ (l.foldl (addTableEdges s opts) g).edges) :
    e ∈ g.edges ∨
      ∃ t ∈ l, ∃ fk ∈ t.foreign_keys,
        e = (get_qualified_table_name t, resolveTarget s opts t fk) ∧
          (tableDims s opts (resolveTarget s opts t fk)).isSome = true := by
  induction l generalizing g with
  | nil => exact Or.inl h
  | cons t l ih =>
    simp only [List.foldl_cons] at h
    rcases ih _ h with h' | ⟨t', ht', he⟩
    · rcases fkFold_edges_sub s opts t t.foreign_keys g e h' with h'' | ⟨fk, hfk, he⟩
      · exact Or.inl h''
      · exact Or.inr ⟨t, List.mem_cons_self _ _, fk, hfk, he⟩
    · exact Or.inr ⟨t', List.mem_cons_of_mem _ ht', he⟩

theorem buildGraph_edges_sub (s : Schema) (opts : LayoutOptions) (e : String × String)
    (h : e ∈ (buildGraph s opts).edges) :
    ∃ t ∈ s.tables, ∃ fk ∈ t.foreign_keys,
      e = (get_qualified_table_name t, resolveTarget s opts t fk) ∧
        (tableDims s opts (resolveTarget s opts t fk)).isSome = true := by
  rcases tableFold_edges_sub s opts s.tables _ e h with h' | h'
  · rw [addNodesPhase_edges] at h'
    exact absurd h' (by simp)
  · exact h'

/-- Both endpoints of every edge of the graph are nodes of the graph. -/
theorem buildGraph_edge_endpoints (s : Schema) (opts : LayoutOptions) (e : String × String)
    (h : e ∈ (buildGraph s opts).edges) :
    e.1 ∈ (buildGraph s opts).nodes ∧ e.2 ∈ (buildGraph s opts).nodes := by
  rcases buildGraph_edges_sub s opts e h with ⟨t, ht, fk, hfk, he, hsome⟩
  constructor
  · rw [buildGraph_mem_nodes]
    exact ⟨t, ht, by rw [he]⟩
  · rw [buildGraph_mem_nodes]
    rcases (tableDims_isSome s opts _).mp hsome with ⟨t', ht', hq⟩
    exact ⟨t', ht', by rw [he, hq]⟩

theorem addEdge_mem (g : Digraph) (e : String × String) : e ∈ (addEdge g e).edges := by
  unfold addEdge
  by_cases h : e ∈ g.edges <;> simp [h]

theorem addEdge_mono (g : Digraph) (e e' : String × String) (h : e ∈ g.edges) :
    e ∈ (addEdge g e').edges := by
  unfold addEdge
  by_cases he : e' ∈ g.edges <;> simp [he, h]

theorem addFkEdge_mono (s : Schema) (opts : LayoutOptions) (g : Digraph) (t : Table)
    (fk : ForeignKey) (e : String × String) (h : e ∈ g.edges) :
    e ∈ (addFkEdge s opts g t fk).edges := by
  unfold addFkEdge
  split
  · exact addEdge_mono _ _ _ h
  · exact h

theorem fkFold_mono (s : Schema) (opts : LayoutOptions) (t : Table) (l : List ForeignKey)
    (g : Digraph) (e : String × String) (h : e ∈ g.edges) :
    e ∈ (l.foldl (fun g fk => addFkEdge s opts g t fk) g).edges := by
  induction l generalizing g with
  | nil => exact h
  | cons fk l ih =>
    simp only [List.foldl_cons]
    exact ih _ (addFkEdge_mono s opts g t fk e h)

theorem tableFold_mono (s : Schema) (opts : LayoutOptions) (l : List Table)
    (g : Digraph) (e : String × String) (h : e ∈ g.edges) :
    e ∈ (l.foldl (addTableEdges s opts) g).edges := by
  induction l generalizing g with
  | nil => exact h
  | cons t l ih =>
    simp only [List.foldl_cons]
    exact ih _ (fkFold_mono s opts t t.foreign_keys g e h)

theorem fkFold_adds (s : Schema) (opts : LayoutOptions) (t : Table) (l : List ForeignKey)
    (g : Digraph) (fk : ForeignKey) (hfk : fk ∈ l)
    (hsome : (tableDims s opts (resolveTarget s opts t fk)).isSome = true) :
    (get_qualified_table_name t, resolveTarget s opts t fk) ∈
      (l.foldl (fun g fk => addFkEdge s opts g t fk) g).edges := by
  induction l generalizing g with
  | nil => cases hfk
  | cons fk' l ih =>
    simp only [List.foldl_cons]
    rcases List.mem_cons.mp hfk with rfl | hfk'
    · refine fkFold_mono s opts t l _ _ ?_
      unfold addFkEdge
      rw [if_pos hsome]
      exact addEdge_mem _ _
    · exact ih _ hfk'

theorem tableFold_adds (s : Schema) (opts : LayoutOptions) (l : List Table) (g : Digraph)
    (t : Table) (fk : ForeignKey) (ht : t ∈ l) (hfk : fk ∈ t.foreign_keys)
    (hsome : (tableDims s opts (resolveTarget s opts t fk)).isSome = true) :
    (get_qualified_table_name t, resolveTarget s opts t fk) ∈
      (l.foldl (addTableEdges s opts) g).edges := by
  induction l generalizing g with
  | nil => cases ht
  | cons t' l ih =>
    simp only [List.foldl_cons]
    rcases List.mem_cons.mp ht with rfl | ht'
    · exact tableFold_mono s opts l _ _ (fkFold_adds s opts t t.foreign_keys g fk hfk hsome)
    · exact ih _ ht'

theorem buildGraph_edge_mem (s : Schema) (opts : LayoutOptions) (t : Table) (fk : ForeignKey)
    (ht : t ∈ s.tables) (hfk : fk ∈ t.foreign_keys)
    (hsome : (tableDims s opts (resolveTarget s opts t fk)).isSome = true) :
    (get_qualified_table_name t, resolveTarget s opts t fk) ∈ (buildGraph s opts).edges :=
  tableFold_adds s opts s.tables _ t fk ht hfk hsome

/-! ### Lemmas about sorting -/

theorem mem_sortStr (l : List String) (a : String) : a ∈ sortStr l ↔ a ∈ l :=
  (List.perm_insertionSort _ l).mem_iff

theorem nodup_sortStr (l : List String) (h : l.Nodup) : (sortStr l).Nodup :=
  ((List.perm_insertionSort _ l).nodup_iff).mpr h

theorem mem_sortNat (l : List Nat) (a : Nat) : a ∈ sortNat l ↔ a ∈ l :=
  (List.perm_insertionSort _ l).mem_iff

theorem nodup_sortNat (l : List Nat) (h : l.Nodup) : (sortNat l).Nodup :=
  ((List.perm_insertionSort _ l).nodup_iff).mpr h

/-! ### Lemmas about generation assignment -/

theorem contains_eq_decide_mem (l : List String) (a : String) :
    l.contains a = decide (a ∈ l) := by
  by_cases h : a ∈ l <;> simp [List.elem_iff, h]

theorem peelStep_def (E : List (String × String)) (R : List String) :
    peelStep R E =
      R.filter (fun n => !(E.any (fun e => decide (e.2 = n) && R.contains e.1))) := rfl

theorem peelStep_mem (E : List (String × String)) (R : List String) (n : String) :
    n ∈ peelStep R E ↔
      n ∈ R ∧ E.any (fun e => decide (e.2 = n) && R.contains e.1) = false := by
  rw [peelStep_def, List.mem_filter]
  simp

/-- A node with an in-neighbour inside a set contained in `R` is never in
the peeled zero-in-degree layer of `R`. -/
theorem peelStep_not_mem (E : List (String × String)) (R C : List String)
    (hin : ∀ n ∈ C, ∃ u ∈ C, (u, n) ∈ E) (hsub : ∀ u ∈ C, u ∈ R)
    (n : String) (hn : n ∈ C) : n ∉ peelStep R E := by
  intro hmem
  rw [peelStep_mem] at hmem
  obtain ⟨u, hu, hE⟩ := hin n hn
  have hany : E.any (fun e => decide (e.2 = n) && R.contains e.1) = true := by
    rw [List.any_eq_true]
    refine ⟨(u, n), hE, ?_⟩
    simp [List.elem_iff, hsub u hu]
  rw [hmem.2] at hany
  cases hany

theorem topoGensAux_perm (E : List (String × String)) (f : Nat) (R : List String)
    (gs : List (List String)) (h : topoGensAux E f R = some gs) :
    gs.flatten.Perm R := by
  induction f generalizing R gs with
  | zero =>
    unfold topoGensAux at h
    by_cases hR : R = []
    · rw [if_pos hR] at h
      have hgs : gs = [] := (Option.some_inj.mp h).symm
      subst hgs
      subst hR
      simp
    · rw [if_neg hR] at h
      cases h
  | succ f ih =>
    unfold topoGensAux at h
    by_cases hR : R = []
    · rw [if_pos hR] at h
      have hgs : gs = [] := (Option.some_inj.mp h).symm
      subst hgs
      subst hR
      simp
    · rw [if_neg hR] at h
      by_cases hz : peelStep R E = []
      · rw [if_pos hz] at h
        cases h
      · rw [if_neg hz] at h
        rcases hrec : topoGensAux E f (R.filter (fun n => !((peelStep R E).contains n))) with
          _ | gs'
        · rw [hrec] at h
          cases h
        · rw [hrec] at h
          simp only [Option.some_inj] at h
          subst h
          have hperm := ih _ _ hrec
          have hz_eq : ∀ n ∈ R, (peelStep R E).contains n =
              !(E.any (fun e => decide (e.2 = n) && R.contains e.1)) := by
            intro n hn
            rw [contains_eq_decide_mem]
            cases hany : E.any (fun e => decide (e.2 = n) && R.contains e.1) with
            | false =>
              have hmem : n ∈ peelStep R E := (peelStep_mem E R n).mpr ⟨hn, hany⟩
              simp [hmem]
            | true =>
              have hmem : n ∉ peelStep R E := by
                intro hmem
                rw [peelStep_mem] at hmem
                rw [hmem.2] at hany
                cases hany
              simp [hmem]
          have hcong : R.filter (fun n => !((peelStep R E).contains n)) =
              R.filter (fun n => !(!(E.any (fun e => decide (e.2 = n) && R.contains e.1)))) :=
            List.filter_congr (fun n hn => by rw [hz_eq n hn])
          rw [hcong] at hperm
          have hsplit := List.filter_append_perm
            (fun n => !(E.any (fun e => decide (e.2 = n) && R.contains e.1))) R
          refine List.Perm.trans ?_ hsplit
          have hflat : (peelStep R E :: gs').flatten = peelStep R E ++ gs'.flatten := by simp
          rw [hflat, peelStep_def]
          exact List.Perm.append_left _ hperm

theorem topoGensAux_none (E : List (String × String)) (C : List String) (hC : C ≠ [])
    (hin : ∀ n ∈ C, ∃ u ∈ C, (u, n) ∈ E) :
    ∀ (f : Nat) (R : List String), (∀ n ∈ C, n ∈ R) → topoGensAux E f R = none := by
  intro f
  induction f with
  | zero =>
    intro R hsub
    have hRne : R ≠ [] := by
      obtain ⟨n, hn⟩ := List.exists_mem_of_ne_nil C hC
      intro hR
      rw [hR] at hsub
      exact absurd (hsub n hn) (by simp)
    unfold topoGensAux
    rw [if_neg hRne]
  | succ f ih =>
    intro R hsub
    have hRne : R ≠ [] := by
      obtain ⟨n, hn⟩ := List.exists_mem_of_ne_nil C hC
      intro hR
      rw [hR] at hsub
      exact absurd (hsub n hn) (by simp)
    unfold topoGensAux
    rw [if_neg hRne]
    by_cases hz : peelStep R E = []
    · rw [if_pos hz]
    · rw [if_neg hz]
      have hsub' : ∀ n ∈ C, n ∈ R.filter (fun n => !((peelStep R E).contains n)) := by
        intro n hn
        rw [List.mem_filter]
        refine ⟨hsub n hn, ?_⟩
        have := peelStep_not_mem E R C hin hsub n hn
        simp [contains_eq_decide_mem, this]
      rw [ih _ hsub']

theorem cycleClose_pred (E : List (String × String)) (v0 a : String) (l : List String)
    (h : cycleClose E v0 a l = true) :
    (∀ b ∈ l, ∃ u ∈ a :: l, (u, b) ∈ E) ∧ ∃ u ∈ a :: l, (u, v0) ∈ E := by
  induction l generalizing a with
  | nil =>
    simp only [cycleClose, decide_eq_true_eq] at h
    exact ⟨by simp, a, List.mem_cons_self _ _, h⟩
  | cons b bs ih =>
    simp only [cycleClose, Bool.and_eq_true, decide_eq_true_eq] at h
    obtain ⟨h1, h2⟩ := h
    obtain ⟨hpred, hclose⟩ := ih b h2
    refine ⟨?_, ?_⟩
    · intro x hx
      rcases List.mem_cons.mp hx with rfl | hx'
      · exact ⟨a, List.mem_cons_self _ _, h1⟩
      · obtain ⟨u, hu, hE⟩ := hpred x hx'
        exact ⟨u, List.mem_cons_of_mem _ hu, hE⟩
    · obtain ⟨u, hu, hE⟩ := hclose
      exact ⟨u, List.mem_cons_of_mem _ hu, hE⟩

theorem cycleWitness_pred (E : List (String × String)) (c : List String)
    (h : cycleWitness E c = true) :
    c ≠ [] ∧ ∀ n ∈ c, ∃ u ∈ c, (u, n) ∈ E := by
  match c with
  | [] => cases h
  | v :: vs =>
    have h' : cycleClose E v v vs = true := h
    obtain ⟨hpred, hclose⟩ := cycleClose_pred E v v vs h'
    refine ⟨by simp, ?_⟩
    intro n hn
    rcases List.mem_cons.mp hn with rfl | hn'
    · exact hclose
    · exact hpred n hn'

theorem topoGens_none_of_cycle (s : Schema) (opts : LayoutOptions) (c : List String)
    (h : cycleWitness (buildGraph s opts).edges c = true) :
    topoGens (buildGraph s opts) = none := by
  obtain ⟨hne, hpred⟩ := cycleWitness_pred _ c h
  unfold topoGens
  refine topoGensAux_none _ c hne hpred _ _ ?_
  intro n hn
  obtain ⟨u, hu, hE⟩ := hpred n hn
  exact (buildGraph_edge_endpoints s opts (u, n) hE).2

theorem mem_flatten_fallback (g : Digraph) (n : String) :
    n ∈ (get_generations_with_cycles g).flatten ↔ n ∈ g.nodes := by
  unfold get_generations_with_cycles
  simp only [List.mem_flatten, List.mem_map]
  constructor
  · rintro ⟨l, ⟨k, hk, rfl⟩, hn⟩
    exact (List.mem_filter.mp hn).1
  · intro hn
    refine ⟨g.nodes.filter (fun m => inDegree g.edges m = inDegree g.edges n),
      ⟨inDegree g.edges n, ?_, rfl⟩, ?_⟩
    · rw [mem_sortNat, List.mem_dedup]
      exact List.mem_map.mpr ⟨n, hn, rfl⟩
    · rw [List.mem_filter]
      exact ⟨hn, by simp⟩

theorem nodup_flatten_fallback (g : Digraph) (h : g.nodes.Nodup) :
    (get_generations_with_cycles g).flatten.Nodup := by
  unfold get_generations_with_cycles
  rw [List.nodup_flatten]
  constructor
  · intro l hl
    rw [List.mem_map] at hl
    obtain ⟨k, hk, rfl⟩ := hl
    exact h.filter _
  · rw [List.pairwise_map]
    have hks : (sortNat ((g.nodes.map (fun n => inDegree g.edges n)).dedup)).Nodup :=
      nodup_sortNat _ (List.nodup_dedup _)
    refine List.Pairwise.imp ?_ hks
    intro k1 k2 hne a ha1 ha2
    rw [List.mem_filter] at ha1 ha2
    have e1 : inDegree g.edges a = k1 := by simpa using ha1.2
    have e2 : inDegree g.edges a = k2 := by simpa using ha2.2
    exact hne (e1 ▸ e2)

theorem computeGenerations_flatten_mem (g : Digraph) (n : String) :
    n ∈ (computeGenerations g).flatten ↔ n ∈ g.nodes := by
  unfold computeGenerations
  rcases htg : topoGens g with _ | gs
  · exact mem_flatten_fallback g n
  · exact (topoGensAux_perm _ _ _ _ htg).mem_iff

theorem computeGenerations_flatten_nodup (g : Digraph) (h : g.nodes.Nodup) :
    (computeGenerations g).flatten.Nodup := by
  unfold computeGenerations
  rcases htg : topoGens g with _ | gs
  · exact nodup_flatten_fallback g h
  · exact ((topoGensAux_perm _ _ _ _ htg).nodup_iff).mpr h

/-! ### Lemmas about placement -/

theorem le_listMaxI (x : Int) (l : List Int) : x ≤ listMaxI x l := by
  induction l generalizing x with
  | nil => exact le_refl x
  | cons y ys ih => exact le_trans (le_max_left x y) (ih (max x y))

theorem genMaxHeight_nonneg (d : String → Int × Int) (gen : List String)
    (hh : ∀ n ∈ gen, 0 ≤ (d n).2) : 0 ≤ genMaxHeight d gen := by
  cases gen with
  | nil => simp [genMaxHeight]
  | cons n rest =>
    have h0 : 0 ≤ (d n).2 := hh n (List.mem_cons_self _ _)
    have : genMaxHeight d (n :: rest) = listMaxI (d n).2 (rest.map (fun m => (d m).2)) := rfl
    rw [this]
    exact le_trans h0 (le_listMaxI _ _)

theorem placeRowTB_not_mem (d : String → Int × Int) (gap : Int) (ns : List String)
    (x y : Int) (m : Pos) (k : String) (h : k ∉ ns) :
    placeRowTB d gap ns x y m k = m k := by
  induction ns generalizing x m with
  | nil => rfl
  | cons n rest ih =>
    simp only [placeRowTB]
    rw [ih _ _ (fun hr => h (List.mem_cons_of_mem _ hr))]
    have hk : k ≠ n := fun he => h (by rw [he]; exact List.mem_cons_self n rest)
    simp [updatePos, hk]

theorem placeRowTB_val_y (d : String → Int × Int) (gap : Int) (ns : List String)
    (x y : Int) (m : Pos) (k : String) (h : k ∈ ns) :
    ∃ x', placeRowTB d gap ns x y m k = some (x', y) := by
  induction ns generalizing x m with
  | nil => cases h
  | cons n rest ih =>
    simp only [placeRowTB]
    by_cases hr : k ∈ rest
    · exact ih _ _ hr
    · have hk : k = n := by
        rcases List.mem_cons.mp h with h' | h'
        · exact h'
        · exact absurd h' hr
      refine ⟨x, ?_⟩
      rw [placeRowTB_not_mem _ _ _ _ _ _ _ hr]
      simp [updatePos, hk]

theorem placeRowTB_val_ge (d : String → Int × Int) (gap : Int) (ns : List String)
    (x y : Int) (m : Pos) (k : String) (h : k ∈ ns)
    (hsteps : ∀ n ∈ ns, 0 < (d n).1 + gap) :
    ∃ x', placeRowTB d gap ns x y m k = some (x', y) ∧ x ≤ x' := by
  induction ns generalizing x m with
  | nil => cases h
  | cons n rest ih =>
    simp only [placeRowTB]
    by_cases hr : k ∈ rest
    · obtain ⟨x', hx', hge⟩ := ih _ _ hr (fun n' hn' => hsteps n' (List.mem_cons_of_mem _ hn'))
      refine ⟨x', hx', ?_⟩
      have hstep : 0 < (d n).1 + gap := hsteps n (List.mem_cons_self _ _)
      omega
    · have hk : k = n := by
        rcases List.mem_cons.mp h with h' | h'
        · exact h'
        · exact absurd h' hr
      refine ⟨x, ?_, le_refl x⟩
      rw [placeRowTB_not_mem _ _ _ _ _ _ _ hr]
      simp [updatePos, hk]

theorem placeRowTB_distinct (d : String → Int × Int) (gap : Int) (ns : List String)
    (x y : Int) (m : Pos) (a b : String) (hnd : ns.Nodup)
    (hsteps : ∀ n ∈ ns, 0 < (d n).1 + gap) (ha : a ∈ ns) (hb : b ∈ ns) (hab : a ≠ b) :
    ∃ xa xb, placeRowTB d gap ns x y m a = some (xa, y) ∧
      placeRowTB d gap ns x y m b = some (xb, y) ∧ xa ≠ xb := by
  induction ns generalizing x m with
  | nil => cases ha
  | cons n rest ih =>
    obtain ⟨hn_not, hrest_nd⟩ := List.nodup_cons.mp hnd
    have hsteps' : ∀ n' ∈ rest, 0 < (d n').1 + gap :=
      fun n' hn' => hsteps n' (List.mem_cons_of_mem _ hn')
    have hstep : 0 < (d n).1 + gap := hsteps n (List.mem_cons_self _ _)
    simp only [placeRowTB]
    rcases List.mem_cons.mp ha with rfl | ha'
    · rcases List.mem_cons.mp hb with rfl | hb'
      · exact absurd rfl hab
      · obtain ⟨xb, hxb, hgeb⟩ := placeRowTB_val_ge d gap rest _ y
          (updatePos m a (x, y)) b hb' hsteps'
        refine ⟨x, xb, ?_, hxb, by omega⟩
        rw [placeRowTB_not_mem _ _ _ _ _ _ _ hn_not]
        simp [updatePos]
    · rcases List.mem_cons.mp hb with rfl | hb'
      · obtain ⟨xa, hxa, hgea⟩ := placeRowTB_val_ge d gap rest _ y
          (updatePos m b (x, y)) a ha' hsteps'
        refine ⟨xa, x, hxa, ?_, by omega⟩
        rw [placeRowTB_not_mem _ _ _ _ _ _ _ hn_not]
        simp [updatePos]
      · exact ih _ _ hrest_nd hsteps' ha' hb'

theorem placeTB_not_mem (d : String → Int × Int) (opts : LayoutOptions)
    (gens : List (List String)) (y : Int) (m : Pos) (k : String)
    (h : k ∉ gens.flatten) : placeTB d opts gens y m k = m k := by
  induction gens generalizing y m with
  | nil => rfl
  | cons gen rest ih =>
    have hflat : k ∉ gen ∧ k ∉ rest.flatten := by
      rw [List.flatten_cons, List.mem_append] at h
      push_neg at h
      exact h
    simp only [placeTB]
    rw [ih _ _ hflat.2]
    exact placeRowTB_not_mem _ _ _ _ _ _ _ (fun hs => hflat.1 ((mem_sortStr gen k).mp hs))

theorem placeRowTB_isSome_mono (d : String → Int × Int) (gap : Int) (ns : List String)
    (x y : Int) (m : Pos) (k : String) (h : (m k).isSome = true) :
    (placeRowTB d gap ns x y m k).isSome = true := by
  induction ns generalizing x m with
  | nil => exact h
  | cons n rest ih =>
    simp only [placeRowTB]
    refine ih _ _ ?_
    by_cases hk : k = n <;> simp [updatePos, hk, h]

theorem placeTB_isSome_mono (d : String → Int × Int) (opts : LayoutOptions)
    (gens : List (List String)) (y : Int) (m : Pos) (k : String)
    (h : (m k).isSome = true) : (placeTB d opts gens y m k).isSome = true := by
  induction gens generalizing y m with
  | nil => exact h
  | cons gen rest ih =>
    simp only [placeTB]
    exact ih _ _ (placeRowTB_isSome_mono _ _ _ _ _ _ _ h)

theorem placeTB_cover (d : String → Int × Int) (opts : LayoutOptions)
    (gens : List (List String)) (y : Int) (m : Pos) (k : String)
    (h : k ∈ gens.flatten) : (placeTB d opts gens y m k).isSome = true := by
  induction gens generalizing y m with
  | nil => simp at h
  | cons gen rest ih =>
    simp only [placeTB]
    rw [List.flatten_cons, List.mem_append] at h
    rcases h with h | h
    · refine placeTB_isSome_mono _ _ _ _ _ _ ?_
      obtain ⟨x', hx'⟩ := placeRowTB_val_y d opts.node_gap (sortStr gen) 20 y m k
        ((mem_sortStr gen k).mpr h)
      simp [hx']
    · exact ih _ _ h

theorem placeTB_ylb (d : String → Int × Int) (opts : LayoutOptions)
    (gens : List (List String)) (y : Int) (m : Pos) (k : String)
    (hh : ∀ gen ∈ gens, ∀ n ∈ gen, 0 ≤ (d n).2) (hr : 0 ≤ opts.rank_gap)
    (h : k ∈ gens.flatten) :
    ∃ v, placeTB d opts gens y m k = some v ∧ y ≤ v.2 := by
  induction gens generalizing y m with
  | nil => simp at h
  | cons gen rest ih =>
    simp only [placeTB]
    by_cases hrest : k ∈ rest.flatten
    · obtain ⟨v, hv, hge⟩ := ih _ _ (fun g hg => hh g (List.mem_cons_of_mem _ hg)) hrest
      refine ⟨v, hv, ?_⟩
      have hmax : 0 ≤ genMaxHeight d gen :=
        genMaxHeight_nonneg d gen (hh gen (List.mem_cons_self _ _))
      omega
    · have hgen : k ∈ gen := by
        rw [List.flatten_cons, List.mem_append] at h
        rcases h with h | h
        · exact h
        · exact absurd h hrest
      rw [placeTB_not_mem _ _ _ _ _ _ hrest]
      obtain ⟨x', hx'⟩ := placeRowTB_val_y d opts.node_gap (sortStr gen) 20 y m k
        ((mem_sortStr gen k).mpr hgen)
      exact ⟨(x', y), hx', le_refl y⟩

theorem placeTB_distinct (d : String → Int × Int) (opts : LayoutOptions)
    (gens : List (List String)) (y : Int) (m : Pos) (a b : String)
    (hnd : gens.flatten.Nodup)
    (hsteps : ∀ gen ∈ gens, ∀ n ∈ gen, 0 < (d n).1 + opts.node_gap)
    (hh : ∀ gen ∈ gens, ∀ n ∈ gen, 0 ≤ (d n).2)
    (hr : 0 < opts.rank_gap)
    (ha : a ∈ gens.flatten) (hb : b ∈ gens.flatten) (hab : a ≠ b) :
    ∃ va vb, placeTB d opts gens y m a = some va ∧
      placeTB d opts gens y m b = some vb ∧ va ≠ vb := by
  induction gens generalizing y m with
  | nil => simp at ha
  | cons gen rest ih =>
    rw [List.flatten_cons] at hnd
    rw [List.flatten_cons, List.mem_append] at ha hb
    obtain ⟨hgen_nd, hrest_nd, hdisj⟩ := List.nodup_append.mp hnd
    have hmax : 0 ≤ genMaxHeight d gen :=
      genMaxHeight_nonneg d gen (hh gen (List.mem_cons_self _ _))
    have hrow_distinct : ∀ a' b', a' ∈ gen → b' ∈ gen → a' ≠ b' →
        ∃ xa xb, placeRowTB d opts.node_gap (sortStr gen) 20 y m a' = some (xa, y) ∧
          placeRowTB d opts.node_gap (sortStr gen) 20 y m b' = some (xb, y) ∧ xa ≠ xb := by
      intro a' b' ha' hb' hab'
      exact placeRowTB_distinct d opts.node_gap (sortStr gen) 20 y m a' b'
        (nodup_sortStr gen hgen_nd)
        (fun n hn => hsteps gen (List.mem_cons_self _ _) n ((mem_sortStr gen n).mp hn))
        ((mem_sortStr gen a').mpr ha') ((mem_sortStr gen b').mpr hb') hab'
    simp only [placeTB]
    rcases ha with ha | ha
    · rcases hb with hb | hb
      · obtain ⟨xa, xb, hxa, hxb, hne⟩ := hrow_distinct a b ha hb hab
        have hanotr : a ∉ rest.flatten := fun hmem => hdisj ha hmem
        have hbnotr : b ∉ rest.flatten := fun hmem => hdisj hb hmem
        rw [placeTB_not_mem _ _ _ _ _ a hanotr, placeTB_not_mem _ _ _ _ _ b hbnotr]
        refine ⟨(xa, y), (xb, y), hxa, hxb, ?_⟩
        intro hvv
        exact hne (congrArg Prod.fst hvv)
      · have hanotr : a ∉ rest.flatten := fun hmem => hdisj ha hmem
        rw [placeTB_not_mem _ _ _ _ _ a hanotr]
        obtain ⟨xa, hxa⟩ := placeRowTB_val_y d opts.node_gap (sortStr gen) 20 y m a
          ((mem_sortStr gen a).mpr ha)
        obtain ⟨vb, hvb, hgeb⟩ := placeTB_ylb d opts rest _ _ b
          (fun g hg => hh g (List.mem_cons_of_mem _ hg)) (le_of_lt hr) hb
        refine ⟨(xa, y), vb, hxa, hvb, ?_⟩
        intro hvv
        have : y = vb.2 := by rw [← hvv]
        omega
    · rcases hb with hb | hb
      · have hbnotr : b ∉ rest.flatten := fun hmem => hdisj hb hmem
        rw [placeTB_not_mem _ _ _ _ _ b hbnotr]
        obtain ⟨xb, hxb⟩ := placeRowTB_val_y d opts.node_gap (sortStr gen) 20 y m b
          ((mem_sortStr gen b).mpr hb)
        obtain ⟨va, hva, hgea⟩ := placeTB_ylb d opts rest _ _ a
          (fun g hg => hh g (List.mem_cons_of_mem _ hg)) (le_of_lt hr) ha
        refine ⟨va, (xb, y), hva, hxb, ?_⟩
        intro hvv
        have : va.2 = y := by rw [hvv]
        omega
      · exact ih _ _ hrest_nd
          (fun g hg => hsteps g (List.mem_cons_of_mem _ hg))
          (fun g hg => hh g (List.mem_cons_of_mem _ hg)) ha hb

theorem placeColLR_not_mem (d : String → Int × Int) (gap : Int) (ns : List String)
    (x y : Int) (m : Pos) (k : String) (h : k ∉ ns) :
    placeColLR d gap ns x y m k = m k := by
  induction ns generalizing y m with
  | nil => rfl
  | cons n rest ih =>
    simp only [placeColLR]
    rw [ih _ _ (fun hr => h (List.mem_cons_of_mem _ hr))]
    have hk : k ≠ n := fun he => h (by rw [he]; exact List.mem_cons_self n rest)
    simp [updatePos, hk]

theorem placeColLR_val_x (d : String → Int × Int) (gap : Int) (ns : List String)
    (x y : Int) (m : Pos) (k : String) (h : k ∈ ns) :
    ∃ y', placeColLR d gap ns x y m k = some (x, y') := by
  induction ns generalizing y m with
  | nil => cases h
  | cons n rest ih =>
    simp only [placeColLR]
    by_cases hr : k ∈ rest
    · exact ih _ _ hr
    · have hk : k = n := by
        rcases List.mem_cons.mp h with h' | h'
        · exact h'
        · exact absurd h' hr
      refine ⟨y, ?_⟩
      rw [placeColLR_not_mem _ _ _ _ _ _ _ hr]
      simp [updatePos, hk]

theorem placeColLR_isSome_mono (d : String → Int × Int) (gap : Int) (ns : List String)
    (x y : Int) (m : Pos) (k : String) (h : (m k).isSome = true) :
    (placeColLR d gap ns x y m k).isSome = true := by
  induction ns generalizing y m with
  | nil => exact h
  | cons n rest ih =>
    simp only [placeColLR]
    refine ih _ _ ?_
    by_cases hk : k = n <;> simp [updatePos, hk, h]

theorem placeLR_isSome_mono (d : String → Int × Int) (opts : LayoutOptions)
    (gens : List (List String)) (x : Int) (m : Pos) (k : String)
    (h : (m k).isSome = true) : (placeLR d opts gens x m k).isSome = true := by
  induction gens generalizing x m with
  | nil => exact h
  | cons gen rest ih =>
    simp only [placeLR]
    exact ih _ _ (placeColLR_isSome_mono _ _ _ _ _ _ _ h)

theorem placeLR_cover (d : String → Int × Int) (opts : LayoutOptions)
    (gens : List (List String)) (x : Int) (m : Pos) (k : String)
    (h : k ∈ gens.flatten) : (placeLR d opts gens x m k).isSome = true := by
  induction gens generalizing x m with
  | nil => simp at h
  | cons gen rest ih =>
    simp only [placeLR]
    rw [List.flatten_cons, List.mem_append] at h
    rcases h with h | h
    · refine placeLR_isSome_mono _ _ _ _ _ _ ?_
      obtain ⟨y', hy'⟩ := placeColLR_val_x d opts.node_gap (sortStr gen) x 20 m k
        ((mem_sortStr gen k).mpr h)
      simp [hy']
    · exact ih _ _ h

/-! ### Equivalence of the code placement with the spec placement -/

/-- Proof-internal running form of one `"TB"` row. -/
def runRowTB (d : String → Int × Int) (gap : Int) : List String → Int → Int → List (String × Int × Int)
  | [], _, _ => []
  | n :: rest, x, y => (n, x, y) :: runRowTB d gap rest (x + (d n).1 + gap) y

/-- Proof-internal running form of one `"LR"` column. -/
def runColLR (d : String → Int × Int) (gap : Int) : List String → Int → Int → List (String × Int × Int)
  | [], _, _ => []
  | n :: rest, x, y => (n, x, y) :: runColLR d gap rest x (y + (d n).2 + gap)

theorem lastAssoc_append (l1 l2 : List (String × Int × Int)) (k : String) :
    lastAssoc (l1 ++ l2) k =
      match lastAssoc l2 k with
      | some v => some v
      | none => lastAssoc l1 k := by
  induction l1 with
  | nil =>
    cases h : lastAssoc l2 k <;> simp [lastAssoc, h]
  | cons e l1 ih =>
    obtain ⟨n, x, y⟩ := e
    show (match lastAssoc (l1 ++ l2) k with
        | some v => some v
        | none => if k = n then some (x, y) else none) =
      match lastAssoc l2 k with
      | some v => some v
      | none =>
        match lastAssoc l1 k with
        | some v => some v
        | none => if k = n then some (x, y) else none
    rw [ih]
    cases h2 : lastAssoc l2 k <;> cases h1 : lastAssoc l1 k <;> rfl

theorem specRowRest_eq_run (d : String → Int × Int) (gap : Int) (ns : List String) :
    ∀ (prev : String) (px py : Int),
      specRowRest d gap prev px py ns = runRowTB d gap ns (px + (d prev).1 + gap) py := by
  induction ns with
  | nil => intro prev px py; rfl
  | cons n rest ih =>
    intro prev px py
    simp only [specRowRest, runRowTB]
    rw [ih n _ py]

theorem specRowTB_eq_run (d : String → Int × Int) (gap : Int) (ns : List String) (y : Int) :
    specRowTB d gap ns y = runRowTB d gap ns 20 y := by
  cases ns with
  | nil => rfl
  | cons n rest =>
    simp only [specRowTB, runRowTB]
    rw [specRowRest_eq_run]

theorem specColRest_eq_run (d : String → Int × Int) (gap : Int) (ns : List String) :
    ∀ (prev : String) (px py : Int),
      specColRest d gap prev px py ns = runColLR d gap ns px (py + (d prev).2 + gap) := by
  induction ns with
  | nil => intro prev px py; rfl
  | cons n rest ih =>
    intro prev px py
    simp only [specColRest, runColLR]
    rw [ih n _ _]

theorem specColLR_eq_run (d : String → Int × Int) (gap : Int) (ns : List String) (x : Int) :
    specColLR d gap ns x = runColLR d gap ns x 20 := by
  cases ns with
  | nil => rfl
  | cons n rest =>
    simp only [specColLR, runColLR]
    rw [specColRest_eq_run]

theorem placeRowTB_eq_run (d : String → Int × Int) (gap : Int) (ns : List String)
    (x y : Int) (m : Pos) (k : String) :
    placeRowTB d gap ns x y m k =
      match lastAssoc (runRowTB d gap ns x y) k with
      | some v => some v
      | none => m k := by
  induction ns generalizing x m with
  | nil => rfl
  | cons n rest ih =>
    simp only [placeRowTB, runRowTB]
    rw [ih]
    cases hl : lastAssoc (runRowTB d gap rest (x + (d n).1 + gap) y) k with
    | some v => simp [lastAssoc, hl]
    | none =>
      by_cases hk : k = n
      · subst hk
        simp [lastAssoc, hl, updatePos]
      · simp [lastAssoc, hl, updatePos, hk]

theorem placeColLR_eq_run (d : String → Int × Int) (gap : Int) (ns : List String)
    (x y : Int) (m : Pos) (k : String) :
    placeColLR d gap ns x y m k =
      match lastAssoc (runColLR d gap ns x y) k with
      | some v => some v
      | none => m k := by
  induction ns generalizing y m with
  | nil => rfl
  | cons n rest ih =>
    simp only [placeColLR, runColLR]
    rw [ih]
    cases hl : lastAssoc (runColLR d gap rest x (y + (d n).2 + gap)) k with
    | some v => simp [lastAssoc, hl]
    | none =>
      by_cases hk : k = n
      · subst hk
        simp [lastAssoc, hl, updatePos]
      · simp [lastAssoc, hl, updatePos, hk]

theorem placeTB_eq_spec (d : String → Int × Int) (opts : LayoutOptions)
    (gens : List (List String)) (y : Int) (m : Pos) (k : String) :
    placeTB d opts gens y m k =
      match lastAssoc (specGensTB d opts.node_gap opts.rank_gap gens y) k with
      | some v => some v
      | none => m k := by
  induction gens generalizing y m with
  | nil => rfl
  | cons gen rest ih =>
    simp only [placeTB, specGensTB]
    rw [ih, lastAssoc_append]
    rw [placeRowTB_eq_run, ← specRowTB_eq_run]
    cases h2 : lastAssoc (specGensTB d opts.node_gap opts.rank_gap rest
        (y + genMaxHeight d gen + opts.rank_gap)) k with
    | some v => rfl
    | none =>
      cases h1 : lastAssoc (specRowTB d opts.node_gap (sortStr gen) y) k <;> rfl

theorem placeLR_eq_spec (d : String → Int × Int) (opts : LayoutOptions)
    (gens : List (List String)) (x : Int) (m : Pos) (k : String) :
    placeLR d opts gens x m k =
      match lastAssoc (specGensLR d opts.node_gap opts.rank_gap gens x) k with
      | some v => some v
      | none => m k := by
  induction gens generalizing x m with
  | nil => rfl
  | cons gen rest ih =>
    simp only [placeLR, specGensLR]
    rw [ih, lastAssoc_append]
    rw [placeColLR_eq_run, ← specColLR_eq_run]
    cases h2 : lastAssoc (specGensLR d opts.node_gap opts.rank_gap rest
        (x + genMaxWidth d gen + opts.rank_gap)) k with
    | some v => rfl
    | none =>
      cases h1 : lastAssoc (specColLR d opts.node_gap (sortStr gen) x) k <;> rfl

/-! ### Top-level bridging lemmas -/

/-- Every table of the schema gets a position in the layout dict. -/
theorem layoutPositions_isSome (s : Schema) (opts : LayoutOptions) (t : Table)
    (ht : t ∈ s.tables) :
    (layoutPositions s opts (get_qualified_table_name t)).isSome = true := by
  have hk : get_qualified_table_name t ∈ (buildGraph s opts).nodes :=
    (buildGraph_mem_nodes s opts _).mpr ⟨t, ht, rfl⟩
  have hne : (buildGraph s opts).nodes ≠ [] := by
    intro h
    rw [h] at hk
    cases hk
  unfold layoutPositions
  rw [if_pos (List.length_pos.mpr hne)]
  have hflat : get_qualified_table_name t ∈
      (computeGenerations (buildGraph s opts)).flatten :=
    (computeGenerations_flatten_mem _ _).mpr hk
  unfold hierarchical_layout
  cases opts.direction
  · exact placeTB_cover _ _ _ _ _ _ hflat
  · exact placeLR_cover _ _ _ _ _ _ hflat

/-- An empty schema yields an empty positions dict without any placement. -/
theorem layoutPositions_empty (s : Schema) (opts : LayoutOptions) (h : s.tables = [])
    (k : String) : layoutPositions s opts k = none := by
  have hn : (buildGraph s opts).nodes = [] := by
    by_contra hne
    obtain ⟨n, hn⟩ := List.exists_mem_of_ne_nil _ hne
    obtain ⟨t, ht, _⟩ := (buildGraph_mem_nodes s opts n).mp hn
    rw [h] at ht
    cases ht
  unfold layoutPositions
  rw [hn]
  simp [emptyPos]

/-- Under the default options, every node's dimensions are at least
150 wide and 50 tall. -/
theorem dimsAt_default_bounds (s : Schema) (n : String)
    (hn : n ∈ (buildGraph s defaultLayoutOptions).nodes) :
    150 ≤ (dimsAt (tableDims s defaultLayoutOptions) n).1 ∧
      50 ≤ (dimsAt (tableDims s defaultLayoutOptions) n).2 := by
  obtain ⟨t, ht, hq⟩ := (buildGraph_mem_nodes _ _ _).mp hn
  have hsome : ((tableDims s defaultLayoutOptions) n).isSome = true :=
    (tableDims_isSome _ _ _).mpr ⟨t, ht, hq⟩
  obtain ⟨v, hv⟩ := Option.isSome_iff_exists.mp hsome
  obtain ⟨t', ht', hq', hveq⟩ := tableDims_val _ _ _ _ hv
  unfold dimsAt
  rw [hv]
  simp only [Option.getD_some]
  subst hveq
  exact ⟨calc_width_ge t', calc_height_ge t'⟩

/-- Under the default options, two distinct nodes of the graph receive
distinct positions. -/
theorem layoutPositions_default_distinct (s : Schema) (k1 k2 : String)
    (h1 : k1 ∈ (buildGraph s defaultLayoutOptions).nodes)
    (h2 : k2 ∈ (buildGraph s defaultLayoutOptions).nodes) (hne : k1 ≠ k2) :
    ∃ v1 v2, layoutPositions s defaultLayoutOptions k1 = some v1 ∧
      layoutPositions s defaultLayoutOptions k2 = some v2 ∧ v1 ≠ v2 := by
  have hnodesne : (buildGraph s defaultLayoutOptions).nodes ≠ [] := by
    intro h
    rw [h] at h1
    cases h1
  unfold layoutPositions
  rw [if_pos (List.length_pos.mpr hnodesne)]
  have hTB : hierarchical_layout (buildGraph s defaultLayoutOptions)
      (tableDims s defaultLayoutOptions) defaultLayoutOptions =
      placeTB (dimsAt (tableDims s defaultLayoutOptions)) defaultLayoutOptions
        (computeGenerations (buildGraph s defaultLayoutOptions)) 20 emptyPos := rfl
  rw [hTB]
  have hmemnodes : ∀ gen ∈ computeGenerations (buildGraph s defaultLayoutOptions),
      ∀ n ∈ gen, n ∈ (buildGraph s defaultLayoutOptions).nodes := by
    intro gen hgen n hn
    exact (computeGenerations_flatten_mem _ _).mp (List.mem_flatten.mpr ⟨gen, hgen, hn⟩)
  refine placeTB_distinct _ _ _ _ _ k1 k2
    (computeGenerations_flatten_nodup _ (buildGraph_nodes_nodup s defaultLayoutOptions))
    ?_ ?_ (by decide)
    ((computeGenerations_flatten_mem _ _).mpr h1)
    ((computeGenerations_flatten_mem _ _).mpr h2) hne
  · intro gen hgen n hn
    have hw := (dimsAt_default_bounds s n (hmemnodes gen hgen n hn)).1
    have hgap : defaultLayoutOptions.node_gap = 80 := rfl
    rw [hgap]
    omega
  · intro gen hgen n hn
    have hh := (dimsAt_default_bounds s n (hmemnodes gen hgen n hn)).2
    omega

/-- Qualified names of tables with the same simple name but distinct
nonempty schemas are distinct. -/
theorem qualified_name_inj (t1 t2 : Table) (s1 s2 : String)
    (hs1 : t1.schema = some s1) (hs2 : t2.schema = some s2)
    (h1 : s1 ≠ "") (h2 : s2 ≠ "") (hname : t1.name = t2.name) (hne : s1 ≠ s2) :
    get_qualified_table_name t1 ≠ get_qualified_table_name t2 := by
  unfold get_qualified_table_name
  rw [hs1, hs2]
  show (if s1 ≠ "" then s1 ++ "." ++ t1.name else t1.name) ≠
    (if s2 ≠ "" then s2 ++ "." ++ t2.name else t2.name)
  rw [if_pos h1, if_pos h2]
  intro heq
  rw [hname] at heq
  have hdata := congrArg String.data heq
  rw [String.data_append, String.data_append, String.data_append, String.data_append] at hdata
  have hstep1 := List.append_cancel_right hdata
  have hstep2 := List.append_cancel_right hstep1
  exact hne (String.ext hstep2)

/-! ### Lemmas about foreign-key resolution -/

theorem headD_mem_of_ne_nil (l : List String) (d : String) (h : l ≠ []) : l.headD d ∈ l := by
  cases l with
  | nil => exact absurd rfl h
  | cons a as => exact List.mem_cons_self a as

theorem nameToQualified_mem (tables : List Table) (n c : String)
    (hc : c ∈ nameToQualified tables n) :
    ∃ t ∈ tables, t.name = n ∧ get_qualified_table_name t = c := by
  unfold nameToQualified at hc
  obtain ⟨t, ht, rfl⟩ := List.mem_map.mp hc
  obtain ⟨ht', hp⟩ := List.mem_filter.mp ht
  exact ⟨t, ht', by simpa using hp, rfl⟩

theorem tableDims_isSome_false (s : Schema) (opts : LayoutOptions) (q : String)
    (hq : ∀ t' ∈ s.tables, get_qualified_table_name t' ≠ q) :
    (tableDims s opts q).isSome = false := by
  cases hb : (tableDims s opts q).isSome with
  | false => rfl
  | true =>
    obtain ⟨t', ht', hq'⟩ := (tableDims_isSome s opts q).mp hb
    exact absurd hq' (hq t' ht')

/-- A foreign key whose referenced name matches no table at all resolves
to itself and stays unknown. -/
theorem resolveTarget_unresolved (s : Schema) (opts : LayoutOptions) (t : Table)
    (fk : ForeignKey)
    (hq : ∀ t' ∈ s.tables, get_qualified_table_name t' ≠ fk.referenced_table)
    (hn : ∀ t' ∈ s.tables, t'.name ≠ fk.referenced_table) :
    resolveTarget s opts t fk = fk.referenced_table ∧
      (tableDims s opts fk.referenced_table).isSome = false := by
  have hks : (tableDims s opts fk.referenced_table).isSome = false :=
    tableDims_isSome_false s opts _ hq
  have hcand : nameToQualified s.tables fk.referenced_table = [] := by
    unfold nameToQualified
    rw [List.map_eq_nil_iff, List.filter_eq_nil_iff]
    intro t' ht'
    simpa using hn t' ht'
  refine ⟨?_, hks⟩
  unfold resolveTarget
  rw [hks, hcand]
  simp

/-- Processing a foreign key whose referenced name matches no table
leaves the graph unchanged. -/
theorem addFkEdge_unresolved (s : Schema) (opts : LayoutOptions) (t : Table)
    (fk : ForeignKey)
    (hq : ∀ t' ∈ s.tables, get_qualified_table_name t' ≠ fk.referenced_table)
    (hn : ∀ t' ∈ s.tables, t'.name ≠ fk.referenced_table) (g : Digraph) :
    addFkEdge s opts g t fk = g := by
  obtain ⟨hres, hks⟩ := resolveTarget_unresolved s opts t fk hq hn
  unfold addFkEdge
  rw [hres, hks]
  simp

/-- Resolution of an unqualified name matching two or more tables:
prefer the first candidate whose qualified name starts with the
referencing table's schema followed by a dot, else the first candidate;
with a falsy referencing schema, the first candidate. -/
theorem resolveTarget_multi (s : Schema) (opts : LayoutOptions) (t : Table) (fk : ForeignKey)
    (hq : ∀ t' ∈ s.tables, get_qualified_table_name t' ≠ fk.referenced_table)
    (hc : 2 ≤ (nameToQualified s.tables fk.referenced_table).length) :
    resolveTarget s opts t fk =
      (if strTruthy t.schema then
        match (nameToQualified s.tables fk.referenced_table).find?
            (fun c => strStartsWith c ((t.schema.getD "") ++ ".")) with
        | some c => c
        | none => (nameToQualified s.tables fk.referenced_table).headD fk.referenced_table
      else (nameToQualified s.tables fk.referenced_table).headD fk.referenced_table) := by
  have hks : (tableDims s opts fk.referenced_table).isSome = false :=
    tableDims_isSome_false s opts _ hq
  unfold resolveTarget
  rw [hks]
  have hlen1 : ¬ (nameToQualified s.tables fk.referenced_table).length = 1 := by omega
  have hgt : (nameToQualified s.tables fk.referenced_table).length > 1 := by omega
  rw [if_neg (by simp)]
  rw [if_neg hlen1]
  by_cases hts : strTruthy t.schema = true
  · rw [if_pos ⟨hgt, hts⟩, if_pos hts]
  · have hts' : strTruthy t.schema = false := by
      cases h : strTruthy t.schema
      · rfl
      · exact absurd h hts
    have hne : nameToQualified s.tables fk.referenced_table ≠ [] := by
      intro h
      rw [h] at hc
      simp at hc
    rw [if_neg (fun hand => hts hand.2), if_neg hts, if_pos hne]

/-- The target produced by `resolveTarget_multi` is the qualified name
of one of the matching tables, hence a known node. -/
theorem resolveTarget_multi_known (s : Schema) (opts : LayoutOptions) (t : Table)
    (fk : ForeignKey)
    (hq : ∀ t' ∈ s.tables, get_qualified_table_name t' ≠ fk.referenced_table)
    (hc : 2 ≤ (nameToQualified s.tables fk.referenced_table).length) :
    resolveTarget s opts t fk ∈ nameToQualified s.tables fk.referenced_table ∧
      (tableDims s opts (resolveTarget s opts t fk)).isSome = true := by
  have hne : nameToQualified s.tables fk.referenced_table ≠ [] := by
    intro h
    rw [h] at hc
    simp at hc
  have hmem : resolveTarget s opts t fk ∈ nameToQualified s.tables fk.referenced_table := by
    rw [resolveTarget_multi s opts t fk hq hc]
    by_cases hts : strTruthy t.schema = true
    · rw [if_pos hts]
      cases hf : (nameToQualified s.tables fk.referenced_table).find?
          (fun c => strStartsWith c ((t.schema.getD "") ++ ".")) with
      | some c => exact List.mem_of_find?_eq_some hf
      | none => exact headD_mem_of_ne_nil _ _ hne
    · rw [if_neg hts]
      exact headD_mem_of_ne_nil _ _ hne
  refine ⟨hmem, ?_⟩
  obtain ⟨t', ht', _, hq'⟩ := nameToQualified_mem s.tables _ _ hmem
  exact (tableDims_isSome s opts _).mpr ⟨t', ht', hq'⟩

/-! ### Lemmas about table dimensions -/

theorem columnLine_eq_spec (c : Column) : columnLine c = specColumnLine c := by
  unfold columnLine specColumnLine
  cases hpk : c.primary_key <;> cases href : c.references.isSome <;> cases hnul : c.nullable <;>
    simp [hpk, href, hnul, String.append_assoc]

theorem maxLine_eq (t : Table) :
    (match t.columns.map (fun c => ((columnLine c).length : Int)) with
      | [] => (t.name.length : Int)
      | l :: ls => listMaxI (max (t.name.length : Int) l) ls) = specLongestLine t := by
  unfold specLongestLine
  have hmap : t.columns.map (fun c => ((specColumnLine c).length : Int)) =
      t.columns.map (fun c => ((columnLine c).length : Int)) :=
    List.map_congr_left (fun c _ => by rw [columnLine_eq_spec])
  rw [hmap]
  cases h : t.columns.map (fun c => ((columnLine c).length : Int)) with
  | nil => rfl
  | cons l ls => rfl

/-! ## Claim theorems -/

/-- C1: for every schema whose graph has at least one node, placement
proceeds generation by generation exactly as the spec describes it: the
nodes of each generation are sorted lexicographically and placed with
the first at coordinate 20, each subsequent node offset by the previous
node's extent plus `node_gap`; all nodes of a generation share the other
coordinate, which starts at 20 and advances by the maximum extent of the
previous generation plus `rank_gap`; for `"TB"` the running coordinate
is x and the extent is the width, for `"LR"` the roles are transposed. -/
theorem claim1_placement_follows_spec (s : Schema) (opts : LayoutOptions) (k : String)
    (h : (buildGraph s opts).nodes ≠ []) :
    layoutPositions s opts k = specPlacement s opts k := by
  unfold layoutPositions specPlacement
  rw [if_pos (List.length_pos.mpr h)]
  unfold hierarchical_layout
  cases opts.direction
  · show placeTB (dimsAt (tableDims s opts)) opts
        (computeGenerations (buildGraph s opts)) 20 emptyPos k =
      lastAssoc (specGensTB (dimsAt (tableDims s opts)) opts.node_gap opts.rank_gap
        (computeGenerations (buildGraph s opts)) 20) k
    rw [placeTB_eq_spec]
    cases hl : lastAssoc (specGensTB (dimsAt (tableDims s opts)) opts.node_gap opts.rank_gap
        (computeGenerations (buildGraph s opts)) 20) k <;> rfl
  · show placeLR (dimsAt (tableDims s opts)) opts
        (computeGenerations (buildGraph s opts)) 20 emptyPos k =
      lastAssoc (specGensLR (dimsAt (tableDims s opts)) opts.node_gap opts.rank_gap
        (computeGenerations (buildGraph s opts)) 20) k
    rw [placeLR_eq_spec]
    cases hl : lastAssoc (specGensLR (dimsAt (tableDims s opts)) opts.node_gap opts.rank_gap
        (computeGenerations (buildGraph s opts)) 20) k <;> rfl

/-- Witness for C1 at a concrete one-table schema. -/
theorem claim1_witness :
    (buildGraph exTinySchema defaultLayoutOptions).nodes ≠ [] ∧
      layoutPositions exTinySchema defaultLayoutOptions "users" =
        specPlacement exTinySchema defaultLayoutOptions "users" :=
  ⟨by decide,
    claim1_placement_follows_spec exTinySchema defaultLayoutOptions "users" (by decide)⟩

/-- C2: for every schema whose foreign-key graph contains a directed
cycle, the layout raises no exception and returns a position for every
table, and generation assignment falls back to grouping every node by
its in-degree, one generation per distinct in-degree value, in ascending
order. -/
theorem claim2_cycle_fallback (s : Schema) (opts : LayoutOptions)
    (h : ∃ c, cycleWitness (buildGraph s opts).edges c = true) :
    (∀ t ∈ s.tables,
      (layoutPositions s opts (get_qualified_table_name t)).isSome = true) ∧
      computeGenerations (buildGraph s opts) = inDegreeGensSpec (buildGraph s opts) := by
  obtain ⟨c, hc⟩ := h
  refine ⟨fun t ht => layoutPositions_isSome s opts t ht, ?_⟩
  unfold computeGenerations
  rw [topoGens_none_of_cycle s opts c hc]
  rfl

/-- Witness for C2 at the 3-cycle schema `A → B → C → A`. -/
theorem claim2_witness :
    (∃ c, cycleWitness (buildGraph exCycleSchema defaultLayoutOptions).edges c = true) ∧
      ((∀ t ∈ exCycleSchema.tables,
        (layoutPositions exCycleSchema defaultLayoutOptions
          (get_qualified_table_name t)).isSome = true) ∧
        computeGenerations (buildGraph exCycleSchema defaultLayoutOptions) =
          inDegreeGensSpec (buildGraph exCycleSchema defaultLayoutOptions)) :=
  ⟨⟨["A", "B", "C"], by decide⟩,
    claim2_cycle_fallback exCycleSchema defaultLayoutOptions ⟨["A", "B", "C"], by decide⟩⟩

/-- C4: for every table and every options value, the computed width and
height equal the spec's formulas
`max(min_table_width, L * char_width + 2 * padding)` and
`(row_height + 4) + columns_count * row_height + padding`, where `L` is
the longest line over the table name and the formatted column lines;
dimensions depend only on the table and the options by construction. -/
theorem claim4_dimensions (t : Table) (opts : LayoutOptions) :
    calculate_table_dimensions t opts = (specWidth t opts, specHeight t opts) := by
  unfold calculate_table_dimensions specWidth specHeight
  rw [maxLine_eq, Prod.mk.injEq]
  constructor
  · rw [mul_comm opts.padding 2]
  · rfl

/-- C8: the layout is deterministic — as a pure function of the schema
and the options, two identical calls give identical results. -/
theorem claim8_deterministic (s : Schema) (o : Option LayoutOptions) :
    layout_schema s o = layout_schema s o := rfl

/-- C9: the qualified table name is `"schema.name"` for a nonempty
schema string and the plain name both for an absent schema and for an
empty-string schema. -/
theorem claim9_qualified_name (t : Table) :
    (t.schema = none → get_qualified_table_name t = t.name) ∧
      (t.schema = some "" → get_qualified_table_name t = t.name) ∧
      (∀ sc, t.schema = some sc → sc ≠ "" →
        get_qualified_table_name t = sc ++ "." ++ t.name) := by
  unfold get_qualified_table_name
  refine ⟨?_, ?_, ?_⟩
  · intro h
    rw [h]
  · intro h
    rw [h]
    simp
  · intro sc h hne
    rw [h]
    simp [hne]

/-- Witness for C9 at concrete tables in each schema shape. -/
theorem claim9_witness :
    ((exPubUsers.schema = none → get_qualified_table_name exPubUsers = exPubUsers.name) ∧
      (exPubUsers.schema = some "" → get_qualified_table_name exPubUsers = exPubUsers.name) ∧
      (∀ sc, exPubUsers.schema = some sc → sc ≠ "" →
        get_qualified_table_name exPubUsers = sc ++ "." ++ exPubUsers.name)) ∧
      get_qualified_table_name exPubUsers = "public.users" :=
  ⟨claim9_qualified_name exPubUsers, by decide⟩

/-- C10: every table of every schema is assigned a position by the
generation placement, so the `(0.0, 0.0)` default of the lookup in
`layout_schema` is never what is actually returned. -/
theorem claim10_every_table_positioned (s : Schema) (opts : LayoutOptions) (t : Table)
    (ht : t ∈ s.tables) :
    (layoutPositions s opts (get_qualified_table_name t)).isSome = true :=
  layoutPositions_isSome s opts t ht

/-- Witness for C10 at a concrete one-table schema. -/
theorem claim10_witness :
    exTinySchema.tables.headD { name := "" } ∈ exTinySchema.tables ∧
      (layoutPositions exTinySchema defaultLayoutOptions
        (get_qualified_table_name (exTinySchema.tables.headD { name := "" }))).isSome = true :=
  ⟨by decide,
    claim10_every_table_positioned exTinySchema defaultLayoutOptions _ (by decide)⟩

/-- C3 counterexample: with a schema string that itself contains a dot,
the code's qualified-name prefix match and the claim's schema-equality
rule disagree — the claim predicts the edge target `c.users` (first
candidate, since no candidate's schema equals `"a"`), but the code
resolves to `a.b.users` and the predicted edge is absent. -/
theorem claim3_counterexample :
    specResolveClaim exDotSchema.tables (some "a") "users" = "c.users" ∧
      (buildGraph exDotSchema defaultLayoutOptions).edges = [("a.orders", "a.b.users")] ∧
      ("a.orders", "c.users") ∉ (buildGraph exDotSchema defaultLayoutOptions).edges := by
  refine ⟨by decide, by decide, by decide⟩

/-- C3 (amended): for a foreign key whose referenced name is not a known
qualified name but matches two or more tables, the edge target is the
first candidate whose qualified name starts with the referencing table's
schema followed by a dot; if none does, or the referencing table's
schema is falsy, it is the first candidate in input order — and the
resolved edge is added to the graph. -/
theorem claim3_amended_resolution (s : Schema) (opts : LayoutOptions) (t : Table)
    (fk : ForeignKey) (ht : t ∈ s.tables) (hfk : fk ∈ t.foreign_keys)
    (hq : ∀ t' ∈ s.tables, get_qualified_table_name t' ≠ fk.referenced_table)
    (hc : 2 ≤ (nameToQualified s.tables fk.referenced_table).length) :
    resolveTarget s opts t fk =
      (if strTruthy t.schema then
        match (nameToQualified s.tables fk.referenced_table).find?
            (fun c => strStartsWith c ((t.schema.getD "") ++ ".")) with
        | some c => c
        | none => (nameToQualified s.tables fk.referenced_table).headD fk.referenced_table
      else (nameToQualified s.tables fk.referenced_table).headD fk.referenced_table) ∧
      (get_qualified_table_name t, resolveTarget s opts t fk) ∈ (buildGraph s opts).edges :=
  ⟨resolveTarget_multi s opts t fk hq hc,
    buildGraph_edge_mem s opts t fk ht hfk (resolveTarget_multi_known s opts t fk hq hc).2⟩

/-- Witness for the amended C3 at the spec's `public.users` /
`audit.users` / `public.orders` example: the edge resolves to
`public.users` and the graph has exactly 3 nodes. -/
theorem claim3_witness :
    (exPubOrders ∈ exPubSchema.tables ∧ exPubFk ∈ exPubOrders.foreign_keys ∧
      (∀ t' ∈ exPubSchema.tables, get_qualified_table_name t' ≠ exPubFk.referenced_table) ∧
      2 ≤ (nameToQualified exPubSchema.tables exPubFk.referenced_table).length) ∧
      (resolveTarget exPubSchema defaultLayoutOptions exPubOrders exPubFk =
        (if strTruthy exPubOrders.schema then
          match (nameToQualified exPubSchema.tables exPubFk.referenced_table).find?
              (fun c => strStartsWith c ((exPubOrders.schema.getD "") ++ ".")) with
          | some c => c
          | none => (nameToQualified exPubSchema.tables exPubFk.referenced_table).headD
              exPubFk.referenced_table
        else (nameToQualified exPubSchema.tables exPubFk.referenced_table).headD
          exPubFk.referenced_table) ∧
        (get_qualified_table_name exPubOrders,
          resolveTarget exPubSchema defaultLayoutOptions exPubOrders exPubFk) ∈
          (buildGraph exPubSchema defaultLayoutOptions).edges) ∧
      resolveTarget exPubSchema defaultLayoutOptions exPubOrders exPubFk = "public.users" ∧
      (buildGraph exPubSchema defaultLayoutOptions).nodes.length = 3 :=
  ⟨⟨by decide, by decide, by decide, by decide⟩,
    claim3_amended_resolution exPubSchema defaultLayoutOptions exPubOrders exPubFk
      (by decide) (by decide) (by decide) (by decide),
    by decide, by decide⟩

/-- C5: a foreign key whose referenced name matches no table by
qualified name and no table by simple name adds no edge to the graph,
while the referencing table still appears in the output with a computed
position and computed dimensions. -/
theorem claim5_unresolved_fk (s : Schema) (opts : LayoutOptions) (t : Table)
    (fk : ForeignKey) (ht : t ∈ s.tables) (hfk : fk ∈ t.foreign_keys)
    (hq : ∀ t' ∈ s.tables, get_qualified_table_name t' ≠ fk.referenced_table)
    (hn : ∀ t' ∈ s.tables, t'.name ≠ fk.referenced_table) :
    (∀ g, addFkEdge s opts g t fk = g) ∧
      (∃ pt ∈ (layout_schema s (some opts)).tables,
        pt.name = t.name ∧ pt.schema = t.schema) ∧
      (layoutPositions s opts (get_qualified_table_name t)).isSome = true ∧
      (tableDims s opts (get_qualified_table_name t)).isSome = true := by
  refine ⟨fun g => addFkEdge_unresolved s opts t fk hq hn g, ?_,
    layoutPositions_isSome s opts t ht, (tableDims_isSome s opts _).mpr ⟨t, ht, rfl⟩⟩
  refine ⟨positionTable s opts t, ?_, rfl, rfl⟩
  show positionTable s opts t ∈ s.tables.map (positionTable s opts)
  exact List.mem_map.mpr ⟨t, ht, rfl⟩

/-- Witness for C5 at a schema with a foreign key to a nonexistent
table. -/
theorem claim5_witness :
    (exFkTable "orders" "ghost" ∈ exGhostSchema.tables ∧
      exGhostFk ∈ (exFkTable "orders" "ghost").foreign_keys ∧
      (∀ t' ∈ exGhostSchema.tables,
        get_qualified_table_name t' ≠ exGhostFk.referenced_table) ∧
      (∀ t' ∈ exGhostSchema.tables, t'.name ≠ exGhostFk.referenced_table)) ∧
      ((∀ g, addFkEdge exGhostSchema defaultLayoutOptions g
          (exFkTable "orders" "ghost") exGhostFk = g) ∧
        (∃ pt ∈ (layout_schema exGhostSchema (some defaultLayoutOptions)).tables,
          pt.name = (exFkTable "orders" "ghost").name ∧
          pt.schema = (exFkTable "orders" "ghost").schema) ∧
        (layoutPositions exGhostSchema defaultLayoutOptions
          (get_qualified_table_name (exFkTable "orders" "ghost"))).isSome = true ∧
        (tableDims exGhostSchema defaultLayoutOptions
          (get_qualified_table_name (exFkTable "orders" "ghost"))).isSome = true) :=
  ⟨⟨by decide, by decide, by decide, by decide⟩,
    claim5_unresolved_fk exGhostSchema defaultLayoutOptions (exFkTable "orders" "ghost")
      exGhostFk (by decide) (by decide) (by decide) (by decide)⟩

/-- C6: the layout returns exactly one positioned table per input table
with all non-geometric fields unchanged and the dialect preserved; for
an empty schema the output table list is empty and the positions dict
stays empty. -/
theorem claim6_frame (s : Schema) (o : Option LayoutOptions) :
    (layout_schema s o).tables.map toTable = s.tables ∧
      (layout_schema s o).dialect = s.dialect ∧
      (s.tables = [] → (layout_schema s o).tables = [] ∧
        ∀ k, layoutPositions s (o.getD defaultLayoutOptions) k = none) := by
  refine ⟨?_, rfl, ?_⟩
  · show (s.tables.map (positionTable s (o.getD defaultLayoutOptions))).map toTable = s.tables
    rw [List.map_map]
    have h : ∀ t ∈ s.tables,
        (toTable ∘ positionTable s (o.getD defaultLayoutOptions)) t = id t :=
      fun t _ => rfl
    rw [List.map_congr_left h, List.map_id]
  · intro h
    refine ⟨?_, fun k => layoutPositions_empty s _ h k⟩
    show s.tables.map (positionTable s (o.getD defaultLayoutOptions)) = []
    rw [h]
    rfl

/-- Witness for C6 at the empty schema, also exercising the
empty-schema clause. -/
theorem claim6_witness :
    ((layout_schema exEmptySchema none).tables.map toTable = exEmptySchema.tables ∧
      (layout_schema exEmptySchema none).dialect = exEmptySchema.dialect ∧
      (exEmptySchema.tables = [] → (layout_schema exEmptySchema none).tables = [] ∧
        ∀ k, layoutPositions exEmptySchema (Option.getD none defaultLayoutOptions) k = none)) ∧
      (layout_schema exEmptySchema none).tables = [] :=
  ⟨claim6_frame exEmptySchema none, ((claim6_frame exEmptySchema none).2.2 rfl).1⟩

/-- C7: two tables with the same simple name but distinct nonempty
schemas both appear in the default layout's output, and their positions
differ. -/
theorem claim7_same_name_distinct_schemas (s : Schema) (t1 t2 : Table) (s1 s2 : String)
    (h1 : t1 ∈ s.tables) (h2 : t2 ∈ s.tables) (hname : t1.name = t2.name)
    (hs1 : t1.schema = some s1) (hs2 : t2.schema = some s2)
    (hne : s1 ≠ s2) (he1 : s1 ≠ "") (he2 : s2 ≠ "") :
    ∃ p1 ∈ (layout_schema s none).tables, ∃ p2 ∈ (layout_schema s none).tables,
      p1.name = t1.name ∧ p1.schema = t1.schema ∧
      p2.name = t2.name ∧ p2.schema = t2.schema ∧
      (p1.x ≠ p2.x ∨ p1.y ≠ p2.y) := by
  have hqne := qualified_name_inj t1 t2 s1 s2 hs1 hs2 he1 he2 hname hne
  have hk1 : get_qualified_table_name t1 ∈ (buildGraph s defaultLayoutOptions).nodes :=
    (buildGraph_mem_nodes _ _ _).mpr ⟨t1, h1, rfl⟩
  have hk2 : get_qualified_table_name t2 ∈ (buildGraph s defaultLayoutOptions).nodes :=
    (buildGraph_mem_nodes _ _ _).mpr ⟨t2, h2, rfl⟩
  obtain ⟨v1, v2, hv1, hv2, hvne⟩ := layoutPositions_default_distinct s _ _ hk1 hk2 hqne
  obtain ⟨x1, y1⟩ := v1
  obtain ⟨x2, y2⟩ := v2
  refine ⟨positionTable s defaultLayoutOptions t1, ?_,
    positionTable s defaultLayoutOptions t2, ?_, rfl, rfl, rfl, rfl, ?_⟩
  · show positionTable s defaultLayoutOptions t1 ∈
      s.tables.map (positionTable s defaultLayoutOptions)
    exact List.mem_map.mpr ⟨t1, h1, rfl⟩
  · show positionTable s defaultLayoutOptions t2 ∈
      s.tables.map (positionTable s defaultLayoutOptions)
    exact List.mem_map.mpr ⟨t2, h2, rfl⟩
  · have hx1 : (positionTable s defaultLayoutOptions t1).x = x1 := by
      simp [positionTable, hv1]
    have hy1 : (positionTable s defaultLayoutOptions t1).y = y1 := by
      simp [positionTable, hv1]
    have hx2 : (positionTable s defaultLayoutOptions t2).x = x2 := by
      simp [positionTable, hv2]
    have hy2 : (positionTable s defaultLayoutOptions t2).y = y2 := by
      simp [positionTable, hv2]
    rw [hx1, hy1, hx2, hy2]
    by_contra hcon
    push_neg at hcon
    obtain ⟨hex, hey⟩ := hcon
    subst hex
    subst hey
    exact hvne rfl

/-- Witness for C7 at the `public.users` / `audit.users` schema. -/
theorem claim7_witness :
    (exPubUsers ∈ exPubSchema.tables ∧ exAudUsers ∈ exPubSchema.tables ∧
      exPubUsers.name = exAudUsers.name ∧
      exPubUsers.schema = some "public" ∧ exAudUsers.schema = some "audit" ∧
      ("public" : String) ≠ "audit" ∧ ("public" : String) ≠ "" ∧ ("audit" : String) ≠ "") ∧
      (∃ p1 ∈ (layout_schema exPubSchema none).tables,
        ∃ p2 ∈ (layout_schema exPubSchema none).tables,
        p1.name = exPubUsers.name ∧ p1.schema = exPubUsers.schema ∧
        p2.name = exAudUsers.name ∧ p2.schema = exAudUsers.schema ∧
        (p1.x ≠ p2.x ∨ p1.y ≠ p2.y)) :=
  ⟨⟨by decide, by decide, by decide, by decide, by decide, by decide, by decide, by decide⟩,
    claim7_same_name_distinct_schemas exPubSchema exPubUsers exAudUsers "public" "audit"
      (by decide) (by decide) (by decide) (by decide) (by decide)
      (by decide) (by decide) (by decide)⟩

end DbDiagram
